import Mathlib

/-!
Verification of the core claims of the lepl parser-combinator library
against a shallow Lean embedding of its Python source.

Each section embeds one source component (translated from the code,
not from prose), followed by theorems that settle the claims about it.
-/

namespace Lepl

/-! ### Trampoline (src/lepl/parser.py, `trampoline`)

The driver evaluates matcher coroutines.  A coroutine (Python generator
wrapped in `GeneratorWrapper`) is modelled as a state of an abstract
generator machine `stepG : G → GEvent → GOut × G`: each `next`/`send`/
`throw` call delivers an event and receives the generator's response
(yield a child generator, yield a result pair, raise StopIteration, or
raise another error) together with the generator's advanced state.
The driver's `value` variable holds either a generator, a result pair,
or an exception object (StopIteration or other); the flag
`exception_being_raised` is modelled by `TStat.exc`. -/

/-- The possible contents of the driver's `value` variable. -/
inductive TVal (G α ε : Type) : Type where
  | gen (g : G)
  | pair (p : α)
  | stopIter
  | err (e : ε)
deriving DecidableEq

/-- Events delivered to a generator: a plain `next` call, a `send` of the
current value, or a `throw` of the current (exception) value. -/
inductive GEvent (G α ε : Type) : Type where
  | start
  | sentVal (v : TVal G α ε)
  | thrownVal (v : TVal G α ε)
deriving DecidableEq

/-- A generator's response to one event. -/
inductive GOut (G α ε : Type) : Type where
  | yieldsGen (g : G)
  | yieldsPair (p : α)
  | stop
  | raises (e : ε)
deriving DecidableEq

/-- A generator machine: the behaviour of `next`/`send`/`throw` on a
generator state, returning the response and the advanced state. -/
def GenMachine (G α ε : Type) : Type := G → GEvent G α ε → GOut G α ε × G

/-- The loop state of `trampoline`: the coroutine stack (top at the head),
the `value` variable, and the `exception_being_raised` flag. -/
structure TStat (G α ε : Type) : Type where
  stack : List G
  value : TVal G α ε
  exc : Bool
deriving DecidableEq

/-- The effect of one iteration of the trampoline loop: continue with a new
state, yield a value to the outer consumer and continue, or propagate an
exception to the caller (also covers the unreachable pop-from-empty case). -/
inductive StepOut (G α ε : Type) : Type where
  | next (s : TStat G α ε)
  | yielded (v : TVal G α ε) (s : TStat G α ε)
  | fatal (v : TVal G α ε)
deriving DecidableEq

/-- Convert a generator response into the driver's new `value` and
`exception_being_raised` flag (the `except` clause of the loop sets the
flag for StopIteration and other errors alike). -/
def stepValue {G α ε : Type} (out : GOut G α ε) : TVal G α ε × Bool :=
  match out with
  | .yieldsGen g => (.gen g, false)
  | .yieldsPair p => (.pair p, false)
  | .stop => (.stopIter, true)
  | .raises e => (.err e, true)

/-- The non-generator half of the loop body: drop the top of the stack; if
coroutines remain, `throw` or `send` the value into the new top; otherwise
raise to the caller or yield to the outer consumer and restart from `main`. -/
def stepPop {G α ε : Type} (stepG : GenMachine G α ε) (main : G)
    (stack : List G) (v : TVal G α ε) (exc : Bool) : StepOut G α ε :=
  match stack with
  | [] => .fatal v
  | _popped :: stk2 =>
    match stk2 with
    | top :: stk3 =>
      let r := if exc then stepG top (.thrownVal v) else stepG top (.sentVal v)
      .next ⟨r.2 :: stk3, (stepValue r.1).1, (stepValue r.1).2⟩
    | [] =>
      if exc then .fatal v
      else .yielded v ⟨[], .gen main, false⟩

/-- One iteration of the `trampoline` loop body. -/
def step {G α ε : Type} (stepG : GenMachine G α ε) (main : G)
    (s : TStat G α ε) : StepOut G α ε :=
  match s.value with
  | .gen g =>
    let r := stepG g .start
    .next ⟨r.2 :: s.stack, (stepValue r.1).1, (stepValue r.1).2⟩
  | .pair p => stepPop stepG main s.stack (.pair p) s.exc
  | .stopIter => stepPop stepG main s.stack .stopIter s.exc
  | .err e => stepPop stepG main s.stack (.err e) s.exc

/-- Run the trampoline loop with the given fuel, collecting the values
yielded to the outer consumer. -/
def trampolineRun {G α ε : Type} (stepG : GenMachine G α ε) (main : G) :
    Nat → TStat G α ε → List (TVal G α ε)
  | 0, _ => []
  | n + 1, s =>
    match step stepG main s with
    | .next s2 => trampolineRun stepG main n s2
    | .yielded v s2 => v :: trampolineRun stepG main n s2
    | .fatal _ => []

/-- `trampoline(main)`: start with an empty stack and `value = main`. -/
def trampoline {G α ε : Type} (stepG : GenMachine G α ε) (main : G)
    (fuel : Nat) : List (TVal G α ε) :=
  trampolineRun stepG main fuel ⟨[], .gen main, false⟩

/-! ### make_matcher / make_parser (src/lepl/parser.py)

A matcher is modelled by the function taking a stream to the generator
state produced by `matcher._match(stream)`; the configuration provides the
rewriters, which are folded over the matcher before evaluation. -/

/-- `make_matcher`: rewrite the matcher, then return the function
`arg ↦ trampoline(matcher._match(stream(arg)))`. -/
def make_matcher {G α ε σ ι : Type} (stepG : GenMachine G α ε)
    (matcher : σ → G) (rewriters : List ((σ → G) → (σ → G)))
    (stream : ι → σ) (fuel : Nat) : ι → List (TVal G α ε) :=
  fun arg =>
    trampoline stepG ((rewriters.foldl (fun m r => r m) matcher) (stream arg)) fuel

/-- `make_parser`: take the first element of the lazy match sequence and
return its result component; an immediate StopIteration (empty sequence)
becomes the not-found signal None. -/
def makeParser {G ρ σ2 ε σ ι : Type} (stepG : GenMachine G (ρ × σ2) ε)
    (matcher : σ → G) (rewriters : List ((σ → G) → (σ → G)))
    (stream : ι → σ) (fuel : Nat) : ι → Option ρ :=
  fun arg =>
    match make_matcher stepG matcher rewriters stream fuel arg with
    | [] => none
    | v :: _ =>
      match v with
      | .pair p => some p.1
      | _ => none

/-- Invariant relating the `value` variable and the flag: when an exception
is being raised the value is an exception object, otherwise it is a
generator or a result pair. -/
def okVal {G α ε : Type} (v : TVal G α ε) (exc : Bool) : Prop :=
  if exc then v = .stopIter ∨ ∃ e, v = .err e
  else (∃ g, v = .gen g) ∨ ∃ p, v = .pair p

theorem stepValue_ok {G α ε : Type} (out : GOut G α ε) :
    okVal (stepValue out).1 (stepValue out).2 := by
  cases out <;> simp [stepValue, okVal]

theorem step_preserves_ok {G α ε : Type} (stepG : GenMachine G α ε) (main : G)
    (s : TStat G α ε) (h : okVal s.value s.exc) :
    (∀ s2, step stepG main s = .next s2 → okVal s2.value s2.exc) ∧
    (∀ v s2, step stepG main s = .yielded v s2 →
      (∃ p, v = .pair p) ∧ okVal s2.value s2.exc) := by
  obtain ⟨stack, value, exc⟩ := s
  have hpop : ∀ (v : TVal G α ε), okVal v exc → (∀ g, v ≠ .gen g) →
      (∀ s2, stepPop stepG main stack v exc = .next s2 → okVal s2.value s2.exc) ∧
      (∀ w s2, stepPop stepG main stack v exc = .yielded w s2 →
        (∃ p, w = .pair p) ∧ okVal s2.value s2.exc) := by
    intro v hv hng
    cases stack with
    | nil =>
      exact ⟨fun s2 hs => by simp [stepPop] at hs,
             fun w s2 hs => by simp [stepPop] at hs⟩
    | cons a stk2 =>
      cases stk2 with
      | nil =>
        cases exc with
        | false =>
          constructor
          · intro s2 hs; simp [stepPop] at hs
          · intro w s2 hs
            simp only [stepPop, Bool.false_eq_true, if_false, ite_false,
              StepOut.yielded.injEq] at hs
            rcases hs with ⟨h1, h2⟩
            subst h1; subst h2
            refine ⟨?_, Or.inl ⟨main, rfl⟩⟩
            simp only [okVal, Bool.false_eq_true, if_false, ite_false] at hv
            rcases hv with ⟨g, hg⟩ | ⟨p, hp⟩
            · exact absurd hg (hng g)
            · exact ⟨p, hp⟩
        | true =>
          constructor
          · intro s2 hs; simp [stepPop] at hs
          · intro w s2 hs; simp [stepPop] at hs
      | cons top stk3 =>
        constructor
        · intro s2 hs
          simp only [stepPop, StepOut.next.injEq] at hs
          subst hs
          exact stepValue_ok _
        · intro w s2 hs
          simp only [stepPop] at hs
          cases hs
  constructor
  · intro s2 hs
    cases value with
    | gen g =>
      simp only [step, StepOut.next.injEq] at hs
      subst hs
      exact stepValue_ok _
    | pair p => exact (hpop (.pair p) h (by intro g hc; cases hc)).1 s2 hs
    | stopIter => exact (hpop .stopIter h (by intro g hc; cases hc)).1 s2 hs
    | err e => exact (hpop (.err e) h (by intro g hc; cases hc)).1 s2 hs
  · intro w s2 hs
    cases value with
    | gen g => simp only [step] at hs; cases hs
    | pair p => exact (hpop (.pair p) h (by intro g hc; cases hc)).2 w s2 hs
    | stopIter => exact (hpop .stopIter h (by intro g hc; cases hc)).2 w s2 hs
    | err e => exact (hpop (.err e) h (by intro g hc; cases hc)).2 w s2 hs

theorem trampolineRun_pairs {G α ε : Type} (stepG : GenMachine G α ε)
    (main : G) :
    ∀ (n : Nat) (s : TStat G α ε), okVal s.value s.exc →
      ∀ v ∈ trampolineRun stepG main n s, ∃ p, v = TVal.pair p := by
  intro n
  induction n with
  | zero => intro s _ v hv; simp [trampolineRun] at hv
  | succ m ih =>
    intro s hok v hv
    rw [trampolineRun] at hv
    cases hstep : step stepG main s with
    | next s2 =>
      rw [hstep] at hv
      exact ih s2 ((step_preserves_ok stepG main s hok).1 s2 hstep) v hv
    | yielded w s2 =>
      rw [hstep] at hv
      rcases (step_preserves_ok stepG main s hok).2 w s2 hstep with ⟨hp, hok2⟩
      rcases List.mem_cons.mp hv with hv | hv
      · subst hv; exact hp
      · exact ih s2 hok2 v hv
    | fatal w =>
      rw [hstep] at hv
      simp at hv

end Lepl

namespace Lepl

/-! ### pad_bytes (src/lepl/bin/node.py)

The body of the `len(value)*8 < length` branch reads the local `v` before
it is assigned (`v = bytearray(v)`), so taking that branch raises
UnboundLocalError; it is modelled as an error result. -/

/-- `pad_bytes(value, length)`: return `value` unchanged when it already has
enough bytes for `length` bits; the undersized branch raises (undefined
local read) and is modelled as `Except.error`. -/
def pad_bytes (value : List Nat) (length : Nat) : Except Unit (List Nat) :=
  if value.length * 8 < length then Except.error () else Except.ok value

end Lepl

namespace Lepl

/-! ### ConfigBuilder (src/lepl/core/config.py)

Rewriters, monitors, stream factories and alphabets are abstract types.
The concrete rewriters installed by `default()` (Flatten,
ComposeTransforms, AddLexer, AutoMemoize, DirectEvaluation,
CompileRegexp-to-NFA, FullMatch) and the isinstance tests used by
`no_memoize` are carried in an environment record. -/

structure CBEnv (R SF : Type) : Type where
  defaultFactory : SF
  flattenR : R
  composeTransformsR : R
  lexerR : R
  autoMemoizeR : R
  directEvalR : R
  compileNfaR : R
  fullMatchR : R
  isMemoize : R → Bool
  isAutoMemoize : R → Bool

structure ConfigBuilder (R M SF A : Type) : Type where
  started : Bool
  changed : Bool
  rewriters : List R
  monitors : List M
  streamFactory : SF
  alphabet : Option A

/-- The frozen value returned by the `configuration` property. -/
structure Configuration (R M SF : Type) : Type where
  rewriters : List R
  monitors : List M
  streamFactory : SF

/-- `ConfigBuilder.__init__`: not started, `changed` initially True. -/
def initBuilder {R M SF A : Type} (env : CBEnv R SF) : ConfigBuilder R M SF A :=
  ⟨false, true, [], [], env.defaultFactory, none⟩

/-- The body of `add_rewriter` after `__start` has run: set `changed`,
remove any equal rewriter, then add (last added wins). -/
def addRewriterRaw {R M SF A : Type} [DecidableEq R] (r : R)
    (c : ConfigBuilder R M SF A) : ConfigBuilder R M SF A :=
  { c with changed := true,
           rewriters := c.rewriters.filter (fun x => decide (x ≠ r)) ++ [r] }

/-- The body of `remove_rewriters` after `__start` has run. -/
def removeRewritersRaw {R M SF A : Type} (p : R → Bool)
    (c : ConfigBuilder R M SF A) : ConfigBuilder R M SF A :=
  { c with changed := true,
           rewriters := c.rewriters.filter (fun r => !(p r)) }

/-- `clear()`: mark started, set `changed`, drop all configuration. -/
def clearB {R M SF A : Type} (env : CBEnv R SF) (c : ConfigBuilder R M SF A) :
    ConfigBuilder R M SF A :=
  let _ := c
  ⟨true, true, [], [], env.defaultFactory, none⟩

/-- `default()`: `clear` then `flatten`, `compose_transforms`, `lexer`,
`auto_memoize` (which first removes Memoize and AutoMemoize rewriters),
`direct_eval`, `compile_to_nfa`, `full_match`.  Inside `default` the
`__start` guard of each setter is a no-op because `clear` sets `started`,
so the raw bodies are used. -/
def defaultB {R M SF A : Type} [DecidableEq R] (env : CBEnv R SF)
    (c : ConfigBuilder R M SF A) : ConfigBuilder R M SF A :=
  addRewriterRaw env.fullMatchR
    (addRewriterRaw env.compileNfaR
      (addRewriterRaw env.directEvalR
        (addRewriterRaw env.autoMemoizeR
          (removeRewritersRaw env.isAutoMemoize
            (removeRewritersRaw env.isMemoize
              (addRewriterRaw env.lexerR
                (addRewriterRaw env.composeTransformsR
                  (addRewriterRaw env.flattenR (clearB env c)))))))))

/-- `__start()`: install the default configuration on first use. -/
def startB {R M SF A : Type} [DecidableEq R] (env : CBEnv R SF)
    (c : ConfigBuilder R M SF A) : ConfigBuilder R M SF A :=
  if c.started then c else defaultB env { c with started := true }

/-- `add_rewriter`. -/
def add_rewriter {R M SF A : Type} [DecidableEq R] (env : CBEnv R SF) (r : R)
    (c : ConfigBuilder R M SF A) : ConfigBuilder R M SF A :=
  addRewriterRaw r (startB env c)

/-- `remove_rewriter` (the source filters by identity; equality stands in
for identity here). -/
def remove_rewriter {R M SF A : Type} [DecidableEq R] (env : CBEnv R SF) (r : R)
    (c : ConfigBuilder R M SF A) : ConfigBuilder R M SF A :=
  let c2 := startB env c
  { c2 with changed := true,
            rewriters := c2.rewriters.filter (fun x => decide (x ≠ r)) }

/-- `remove_rewriters` (removal by isinstance test `p`). -/
def remove_rewriters {R M SF A : Type} [DecidableEq R] (env : CBEnv R SF)
    (p : R → Bool) (c : ConfigBuilder R M SF A) : ConfigBuilder R M SF A :=
  removeRewritersRaw p (startB env c)

/-- `add_monitor`. -/
def add_monitor {R M SF A : Type} [DecidableEq R] (env : CBEnv R SF) (m : M)
    (c : ConfigBuilder R M SF A) : ConfigBuilder R M SF A :=
  let c2 := startB env c
  { c2 with changed := true, monitors := c2.monitors ++ [m] }

/-- `stream_factory`. -/
def setStreamFactory {R M SF A : Type} [DecidableEq R] (env : CBEnv R SF)
    (sf : SF) (c : ConfigBuilder R M SF A) : ConfigBuilder R M SF A :=
  let c2 := startB env c
  { c2 with changed := true, streamFactory := sf }

/-- The `configuration` property: run `__start`, clear `changed`, and return
the frozen configuration together with the updated builder. -/
def readConfiguration {R M SF A : Type} [DecidableEq R] (env : CBEnv R SF)
    (c : ConfigBuilder R M SF A) :
    ConfigBuilder R M SF A × Configuration R M SF :=
  let c2 := startB env c
  ({ c2 with changed := false }, ⟨c2.rewriters, c2.monitors, c2.streamFactory⟩)

/-- The `alphabet` setter: a None argument does nothing; a conflicting value
raises ConfigurationError; a first value is installed, `__start` runs, and
`changed` is set. -/
def setAlphabet {R M SF A : Type} [DecidableEq R] [DecidableEq A]
    (env : CBEnv R SF) (a : Option A) (c : ConfigBuilder R M SF A) :
    Except Unit (ConfigBuilder R M SF A) :=
  match a with
  | none => Except.ok c
  | some a2 =>
    match c.alphabet with
    | some a0 => if a0 = a2 then Except.ok c else Except.error ()
    | none =>
      Except.ok
        (let c2 := startB env { c with alphabet := some a2 }
         { c2 with changed := true })

end Lepl

namespace Lepl

/-! ### Indent._match (src/lepl/lexer/offside/matchers.py)

The matcher reads the monitor's current indent into `__current_indent` on
push; `_match` raises OffsideError when that was never set, and otherwise
filters the results of the underlying Token `_match` generator, yielding
only those whose (newline-stripped) indent text has the required length
(or everything when the level is the NO_BLOCKS sentinel). -/

def NO_BLOCKS : Int := -1

/-- Strip one trailing newline from the matched indent text
(`if indent[0] and indent[0][-1] == '\n'`). -/
def stripNl (s : List Char) : List Char :=
  if s ≠ [] ∧ s.getLast? = some '\n' then s.dropLast else s

/-- `Indent._match`, over the list of (indent text, stream) results produced
by the superclass generator; `σ` is the opaque stream type.  The
OffsideError raised when no indent level has been set is the
`Except.error` case. -/
def indentMatch {σ : Type} (currentIndent : Option Int)
    (results : List (List Char × σ)) : Except Unit (List (List Char × σ)) :=
  match currentIndent with
  | none => Except.error ()
  | some ci =>
    Except.ok
      (results.filterMap (fun r =>
        let t := stripNl r.1
        if ci = NO_BLOCKS ∨ (t.length : Int) = ci then some (t, r.2) else none))

end Lepl

namespace Lepl

/-- Claim C1: one iteration of the trampoline driver (a) pushes a coroutine
yielded by the top coroutine and steps into it, (b) pops the current
coroutine when it produced a result pair and sends the pair into the new
top, (c) yields the pair to the outer consumer when the stack empties and
restarts evaluation from the root coroutine `main`, and (d) pops a
coroutine that raised the stop signal and throws the signal into the new
top so it can try its next alternative. -/
theorem claim_C1_trampoline_step {G α ε : Type} (stepG : GenMachine G α ε)
    (main g g2 child top popped : G) (stk stk3 : List G) (p : α) (e : Bool) :
    (stepG g .start = (.yieldsGen child, g2) →
      step stepG main ⟨stk, .gen g, e⟩ = .next ⟨g2 :: stk, .gen child, false⟩ ∧
      step stepG main ⟨g2 :: stk, .gen child, false⟩ =
        .next ⟨(stepG child .start).2 :: g2 :: stk,
               (stepValue (stepG child .start).1).1,
               (stepValue (stepG child .start).1).2⟩) ∧
    (step stepG main ⟨popped :: top :: stk3, .pair p, false⟩ =
      .next ⟨(stepG top (.sentVal (.pair p))).2 :: stk3,
             (stepValue (stepG top (.sentVal (.pair p))).1).1,
             (stepValue (stepG top (.sentVal (.pair p))).1).2⟩) ∧
    (step stepG main ⟨[popped], .pair p, false⟩ =
      .yielded (.pair p) ⟨[], .gen main, false⟩) ∧
    (step stepG main ⟨popped :: top :: stk3, .stopIter, true⟩ =
      .next ⟨(stepG top (.thrownVal .stopIter)).2 :: stk3,
             (stepValue (stepG top (.thrownVal .stopIter)).1).1,
             (stepValue (stepG top (.thrownVal .stopIter)).1).2⟩) := by
  refine ⟨fun h => ⟨?_, ?_⟩, ?_, ?_, ?_⟩
  · simp [step, h, stepValue]
  · simp [step]
  · simp [step, stepPop]
  · simp [step, stepPop]
  · simp [step, stepPop]

/-- Witness for C1 at a concrete two-state generator machine. -/
theorem claim_C1_trampoline_step_witness :
    let m : GenMachine Nat Nat Unit := fun g _ =>
      if g = 0 then (GOut.yieldsGen 7, 1) else (GOut.yieldsPair 5, 2)
    step m 9 ⟨[], TVal.gen 0, false⟩ = .next ⟨[1], TVal.gen 7, false⟩ ∧
    step m 9 ⟨[1], TVal.gen 7, false⟩ =
      .next ⟨[2, 1], TVal.pair 5, false⟩ := by
  intro m
  have h := claim_C1_trampoline_step m 9 0 1 7 3 4 [] [] 5 false
  have h0 : m 0 GEvent.start = (GOut.yieldsGen 7, 1) := by simp [m]
  refine ⟨(h.1 h0).1, ?_⟩
  have h2 := (h.1 h0).2
  have h7 : m 7 GEvent.start = (GOut.yieldsPair 5, 2) := by simp [m]
  simpa [h7, stepValue] using h2

/-- Claim C7: the parser function built by `make_parser` returns the result
component of the first match of the underlying matcher's lazy sequence
when that sequence is non-empty (the first element is always a result
pair), and returns None when the sequence produces no match. -/
theorem claim_C7_makeParser {G ρ σ2 ε σ ι : Type}
    (stepG : GenMachine G (ρ × σ2) ε) (matcher : σ → G)
    (rewriters : List ((σ → G) → (σ → G))) (stream : ι → σ) (fuel : Nat)
    (arg : ι) :
    (make_matcher stepG matcher rewriters stream fuel arg = [] →
      makeParser stepG matcher rewriters stream fuel arg = none) ∧
    (∀ v vs, make_matcher stepG matcher rewriters stream fuel arg = v :: vs →
      ∃ p, v = TVal.pair p ∧
        makeParser stepG matcher rewriters stream fuel arg = some p.1) := by
  constructor
  · intro h
    simp [makeParser, h]
  · intro v vs h
    have hok : okVal (G := G) (α := ρ × σ2) (ε := ε)
        (TVal.gen ((rewriters.foldl (fun m r => r m) matcher) (stream arg)))
        false := by
      simp [okVal]
    have hmem : v ∈ make_matcher stepG matcher rewriters stream fuel arg := by
      rw [h]; exact List.mem_cons_self _ _
    have hpair := trampolineRun_pairs stepG _ fuel _ hok v hmem
    rcases hpair with ⟨p, hp⟩
    refine ⟨p, hp, ?_⟩
    simp [makeParser, h, hp]

/-- Witness for C7 on a one-result matcher. -/
theorem claim_C7_makeParser_witness :
    let m : GenMachine Nat (Nat × Nat) Unit := fun _ _ => (GOut.yieldsPair (42, 0), 1)
    ∃ p, (TVal.pair ((42 : Nat), (0 : Nat)) : TVal Nat (Nat × Nat) Unit) = TVal.pair p ∧
      makeParser m (fun s => s) [] (fun (a : Nat) => a) 3 0 = some p.1 := by
  intro m
  exact (claim_C7_makeParser m (fun s => s) [] (fun a => a) 3 0).2
    (TVal.pair (42, 0)) [] rfl

/-- Claim C8: when the byte value is adequately sized (`len(value)*8` at
least the bit length), `pad_bytes` returns the value unchanged and the
padding branch whose behaviour is unspecified (it reads an undefined
local) is never taken. -/
theorem claim_C8_pad_bytes (value : List Nat) (length : Nat)
    (h : length ≤ value.length * 8) :
    pad_bytes value length = Except.ok value := by
  simp [pad_bytes, Nat.not_lt.mpr h]

/-- Witness for C8. -/
theorem claim_C8_pad_bytes_witness :
    pad_bytes [1, 2] 16 = Except.ok [1, 2] :=
  claim_C8_pad_bytes [1, 2] 16 (by decide)

/-- Claim C9: immediately after the `configuration` property is read the
`changed` flag is False, and every modification (add_rewriter,
remove_rewriter, remove_rewriters, add_monitor, stream_factory, clear,
default, or setting the alphabet to a new value) leaves it True, so a
previously built matcher can be reused exactly when the flag is False. -/
theorem claim_C9_config_changed {R M SF A : Type} [DecidableEq R]
    [DecidableEq A] (env : CBEnv R SF) (c : ConfigBuilder R M SF A) (r : R)
    (p : R → Bool) (m : M) (sf : SF) (a : A) :
    ((readConfiguration env c).1.changed = false) ∧
    ((add_rewriter env r c).changed = true) ∧
    ((remove_rewriter env r c).changed = true) ∧
    ((remove_rewriters env p c).changed = true) ∧
    ((add_monitor env m c).changed = true) ∧
    ((setStreamFactory env sf c).changed = true) ∧
    ((clearB env c).changed = true) ∧
    ((defaultB env c).changed = true) ∧
    (c.alphabet = none →
      ∃ c2, setAlphabet env (some a) c = Except.ok c2 ∧ c2.changed = true) := by
  refine ⟨rfl, rfl, rfl, rfl, rfl, rfl, rfl, rfl, fun h => ?_⟩
  refine ⟨{ startB env { c with alphabet := some a } with changed := true },
    ?_, rfl⟩
  simp only [setAlphabet, h]

/-- Witness for C9 at concrete types. -/
theorem claim_C9_config_changed_witness :
    let env : CBEnv Nat Nat :=
      ⟨0, 1, 2, 3, 4, 5, 6, 7, fun _ => false, fun _ => false⟩
    let c : ConfigBuilder Nat Nat Nat Nat := initBuilder env
    c.alphabet = none ∧
    ∃ c2, setAlphabet env (some 5) c = Except.ok c2 ∧ c2.changed = true := by
  intro env c
  exact ⟨rfl, (claim_C9_config_changed env c 0 (fun _ => false) 0 0 5).2.2.2.2.2.2.2.2 rfl⟩

/-- Claim C4: `Indent._match` raises OffsideError when no indent level has
been set, and otherwise every yielded result's indent text has length
equal to the current required indent unless the level is the NO_BLOCKS
sentinel. -/
theorem claim_C4_indent_match {σ : Type} (ci : Int)
    (results : List (List Char × σ)) (out : List (List Char × σ))
    (h : indentMatch (some ci) results = Except.ok out) :
    (indentMatch (none : Option Int) results = Except.error ()) ∧
    ∀ r ∈ out, ci = NO_BLOCKS ∨ (r.1.length : Int) = ci := by
  refine ⟨rfl, ?_⟩
  intro r hr
  simp only [indentMatch, Except.ok.injEq] at h
  subst h
  rcases List.mem_filterMap.mp hr with ⟨x, _, hx⟩
  by_cases hcond : ci = NO_BLOCKS ∨ ((stripNl x.1).length : Int) = ci
  · rw [if_pos hcond] at hx
    cases hx
    exact hcond
  · rw [if_neg hcond] at hx
    cases hx

/-- Witness for C4: at required indent 2, a three-space indent is rejected
and a two-space indent (with trailing newline stripped) is kept. -/
theorem claim_C4_indent_match_witness :
    indentMatch (some 2) [([' ', ' ', ' '], (0 : Nat)), ([' ', ' ', '\n'], 1)] =
      Except.ok [([' ', ' '], 1)] ∧
    ∀ r ∈ [([' ', ' '], (1 : Nat))], (2 : Int) = NO_BLOCKS ∨ (r.1.length : Int) = 2 := by
  have h : indentMatch (some 2) [([' ', ' ', ' '], (0 : Nat)), ([' ', ' ', '\n'], 1)] =
      Except.ok [([' ', ' '], 1)] := by
    simp [indentMatch, stripNl, NO_BLOCKS]
  exact ⟨h, (claim_C4_indent_match 2 _ _ h).2⟩

end Lepl

namespace Lepl

/-! ### Character interval normalization (src/lepl/regexp/interval.py)

Intervals are inclusive pairs over an alphabet of integer character codes;
`alphabet.before` and `alphabet.after` are predecessor and successor on
the codes (the Unicode alphabet).  `Character.__append` maintains the
stored intervals disjoint, ascending, and non-adjacent by merging. -/

/-- The loop of `Character.__append`: insert `[a1, b1]` (already
canonicalized) into the interval list, merging overlapping or adjacent
intervals.  Each branch mirrors one branch of the Python loop body. -/
def charAux : Int → Int → List (Int × Int) → List (Int × Int)
  | a1, b1, [] => [(a1, b1)]
  | a1, b1, (a0, b0) :: rest =>
    if a0 ≤ a1 then
      if b0 < a1 ∧ b0 ≠ a1 - 1 then
        -- old interval starts and ends before new: keep old, continue
        (a0, b0) :: charAux a1 b1 rest
      else if b1 ≤ b0 then
        -- old covers new: keep old, discard new, slurp
        (a0, b0) :: rest
      else
        -- partial overlap: extend new with old start and continue
        charAux a0 b1 rest
    else
      if b1 < a0 ∧ b1 ≠ a0 - 1 then
        -- new starts and ends before old: add both and slurp
        (a1, b1) :: (a0, b0) :: rest
      else if b0 ≤ b1 then
        -- new covers old: discard old and continue
        charAux a1 b1 rest
      else
        -- partial overlap: extended interval and slurp
        (a1, b0) :: rest

/-- `Character.append`: canonicalize a reversed `(hi, lo)` interval, then
run the merge loop. -/
def charAppend (l : List (Int × Int)) (iv : Int × Int) : List (Int × Int) :=
  if iv.2 < iv.1 then charAux iv.2 iv.1 l else charAux iv.1 iv.2 l

/-- The interval list built by `Character.__init__` from a sequence of
appends starting from the empty list. -/
def charOfIntervals (ivs : List (Int × Int)) : List (Int × Int) :=
  ivs.foldl charAppend []

/-- Head lower bound: the first interval (if any) starts at or after `x`. -/
def hlb (x : Int) : List (Int × Int) → Prop
  | [] => True
  | (a, _) :: _ => x ≤ a

/-- The `Character` invariant: every interval is proper and each next
interval starts at least two codes after the previous end, i.e. the list
is disjoint, ascending, and non-adjacent. -/
def chainC : List (Int × Int) → Prop
  | [] => True
  | (a, b) :: t => a ≤ b ∧ hlb (b + 2) t ∧ chainC t

theorem hlb_mono {x y : Int} (h : x ≤ y) :
    ∀ {l : List (Int × Int)}, hlb y l → hlb x l := by
  intro l hl
  cases l with
  | nil => trivial
  | cons hd t =>
    obtain ⟨a, b⟩ := hd
    exact le_trans h hl

theorem charAux_spec :
    ∀ (l : List (Int × Int)) (a1 b1 : Int), a1 ≤ b1 → chainC l →
      chainC (charAux a1 b1 l) ∧
      ∀ x, x ≤ a1 → hlb x l → hlb x (charAux a1 b1 l) := by
  intro l
  induction l with
  | nil =>
    intro a1 b1 h1 _
    refine ⟨⟨h1, trivial, trivial⟩, ?_⟩
    intro x hx _
    exact hx
  | cons hd rest ih =>
    obtain ⟨a0, b0⟩ := hd
    intro a1 b1 h1 hc
    obtain ⟨hab, hh, hcr⟩ := hc
    simp only [charAux]
    split_ifs with hA hA1 hA2 hB1 hB2
    · -- a0 ≤ a1, b0 < a1 and not adjacent: keep old, continue
      obtain ⟨ihc, ihh⟩ := ih a1 b1 h1 hcr
      refine ⟨⟨hab, ?_, ihc⟩, ?_⟩
      · exact ihh (b0 + 2) (by omega) hh
      · intro x hx hxl
        exact hxl
    · -- a0 ≤ a1 ≤ b1 ≤ b0: old covers new
      exact ⟨⟨hab, hh, hcr⟩, fun x _ hxl => hxl⟩
    · -- a0 ≤ a1, partial overlap: continue with (a0, b1)
      obtain ⟨ihc, ihh⟩ := ih a0 b1 (by omega) hcr
      refine ⟨ihc, ?_⟩
      · intro x hx hxl
        have hxa0 : x ≤ a0 := hxl
        exact ihh x hxa0 (hlb_mono (by omega) hh)
    · -- a1 < a0, new ends before old and not adjacent: add both
      refine ⟨⟨h1, ?_, hab, hh, hcr⟩, ?_⟩
      · show b1 + 2 ≤ a0
        omega
      · intro x hx _
        exact hx
    · -- a1 < a0, new covers old: discard old, continue
      obtain ⟨ihc, ihh⟩ := ih a1 b1 h1 hcr
      refine ⟨ihc, ?_⟩
      intro x hx _
      exact ihh x hx (hlb_mono (by omega) hh)
    · -- a1 < a0 ≤ b0, partial overlap: extended interval and slurp
      refine ⟨⟨by omega, hh, hcr⟩, ?_⟩
      intro x hx _
      exact hx

theorem charAppend_chain {l : List (Int × Int)} (h : chainC l)
    (iv : Int × Int) : chainC (charAppend l iv) := by
  obtain ⟨a, b⟩ := iv
  unfold charAppend
  split_ifs with hr
  · exact (charAux_spec l b a (by simpa using le_of_lt hr) h).1
  · simp only at hr
    exact (charAux_spec l a b (by omega) h).1

theorem charOfIntervals_chain_aux :
    ∀ (ivs : List (Int × Int)) (acc : List (Int × Int)), chainC acc →
      chainC (ivs.foldl charAppend acc) := by
  intro ivs
  induction ivs with
  | nil => intro acc h; exact h
  | cons iv rest ih =>
    intro acc h
    exact ih (charAppend acc iv) (charAppend_chain h iv)

/-- Claim C2: for every finite sequence of interval appends, a Character's
stored interval list is pairwise disjoint, in ascending order, and
non-adjacent (consecutive intervals `(a,b), (c,d)` always satisfy
`b + 1 < c`, so no `c = after b` pair remains); and an interval given
reversed as `(hi, lo)` with `hi > lo` is canonicalized to `(lo, hi)` on
insert. -/
theorem claim_C2_character_intervals :
    (∀ ivs : List (Int × Int), chainC (charOfIntervals ivs)) ∧
    (∀ (l : List (Int × Int)) (hi lo : Int), lo < hi →
      charAppend l (hi, lo) = charAppend l (lo, hi)) := by
  constructor
  · intro ivs
    exact charOfIntervals_chain_aux ivs [] trivial
  · intro l hi lo hlt
    unfold charAppend
    simp only
    rw [if_pos hlt, if_neg (by omega)]

/-- Witness for C2 at concrete inputs: appending (1,5), (9,12), (6,7)
merges everything into a single interval, and the reversed interval
(7,4) is treated as (4,7). -/
theorem claim_C2_character_intervals_witness :
    chainC (charOfIntervals [(1, 5), (9, 12), (6, 7)]) ∧
    charAppend [(0, 2)] ((7 : Int), (4 : Int)) = charAppend [(0, 2)] (4, 7) :=
  ⟨claim_C2_character_intervals.1 [(1, 5), (9, 12), (6, 7)],
   claim_C2_character_intervals.2 [(0, 2)] 7 4 (by decide)⟩

end Lepl

namespace Lepl

/-! ### Fragments (src/lepl/regexp/interval.py)

`Fragments.__append` inserts an interval by splitting at every overlap
boundary, producing a finer partition instead of merging. -/

/-- The loop of `Fragments.__append`: insert `[a1, b1]` (already
canonicalized), splitting existing intervals at every overlap boundary.
Each branch mirrors one branch of the Python loop body; `before`/`after`
are predecessor/successor on the codes. -/
def fragAux : Int → Int → List (Int × Int) → List (Int × Int)
  | a1, b1, [] => [(a1, b1)]
  | a1, b1, (a0, b0) :: rest =>
    if a0 ≤ a1 then
      if b0 < a1 then
        -- old starts and ends before new: keep old, continue
        (a0, b0) :: fragAux a1 b1 rest
      else if b1 ≤ b0 then
        -- old covers new: one, two or three pieces, then slurp
        (if a0 < a1 then [(a0, a1 - 1)] else []) ++ [(a1, b1)] ++
          (if b1 < b0 then [(b1 + 1, b0)] else []) ++ rest
      else
        -- old starts before new but partially overlaps: split old, continue
        (if a0 < a1 then [(a0, a1 - 1)] else []) ++ [(a1, b0)] ++
          fragAux (b0 + 1) b1 rest
    else
      if b1 < a0 then
        -- new starts and ends before old: add both and slurp
        (a1, b1) :: (a0, b0) :: rest
      else if b0 ≤ b1 then
        -- new starts before and ends after or with old: split, maybe continue
        (a1, a0 - 1) :: (a0, b0) ::
          (if b0 < b1 then fragAux (b0 + 1) b1 rest else rest)
      else
        -- new starts before old but partially overlaps: split and slurp
        (a1, a0 - 1) :: (a0, b1) :: (b1 + 1, b0) :: rest

/-- `Fragments.append` for a single interval: canonicalize then insert. -/
def fragAppend (l : List (Int × Int)) (iv : Int × Int) : List (Int × Int) :=
  if iv.2 < iv.1 then fragAux iv.2 iv.1 l else fragAux iv.1 iv.2 l

/-- The interval list built by appending a sequence of intervals (the
concatenation of the appended Characters' intervals) to an empty
Fragments. -/
def fragsOfIntervals (ivs : List (Int × Int)) : List (Int × Int) :=
  ivs.foldl fragAppend []

/-- The `Fragments` invariant: proper intervals, disjoint and ascending
(adjacent intervals are allowed, unlike in `Character`). -/
def chainF : List (Int × Int) → Prop
  | [] => True
  | (a, b) :: t => a ≤ b ∧ hlb (b + 1) t ∧ chainF t

/-- A point is covered by one of the intervals in the list. -/
def covers : List (Int × Int) → Int → Prop
  | [], _ => False
  | (a, b) :: t, p => (a ≤ p ∧ p ≤ b) ∨ covers t p

theorem covers_append (l1 l2 : List (Int × Int)) (p : Int) :
    covers (l1 ++ l2) p ↔ covers l1 p ∨ covers l2 p := by
  induction l1 with
  | nil => simp [covers]
  | cons hd t ih =>
    obtain ⟨a, b⟩ := hd
    simp [covers, ih, or_assoc]

theorem covers_exists {l : List (Int × Int)} {p : Int} (h : covers l p) :
    ∃ r ∈ l, r.1 ≤ p ∧ p ≤ r.2 := by
  induction l with
  | nil => exact absurd h (by simp [covers])
  | cons hd t ih =>
    obtain ⟨a, b⟩ := hd
    rcases h with h | h
    · exact ⟨(a, b), by simp, h⟩
    · obtain ⟨r, hr, hp⟩ := ih h
      exact ⟨r, by simp [hr], hp⟩

theorem covers_of_mem {l : List (Int × Int)} {r : Int × Int} (hr : r ∈ l)
    {p : Int} (h1 : r.1 ≤ p) (h2 : p ≤ r.2) : covers l p := by
  induction l with
  | nil => cases hr
  | cons hd t ih =>
    rcases List.mem_cons.mp hr with h | h
    · subst h
      obtain ⟨a, b⟩ := r
      exact Or.inl ⟨h1, h2⟩
    · obtain ⟨a, b⟩ := hd
      exact Or.inr (ih h)

/-- Every element of a chain list after head-lower-bound `x` starts at or
after `x`. -/
theorem chainF_allGe {t : List (Int × Int)} (hc : chainF t) {x : Int}
    (hh : hlb x t) : ∀ r ∈ t, x ≤ r.1 := by
  induction t generalizing x with
  | nil => intro r hr; cases hr
  | cons hd rest ih =>
    obtain ⟨a, b⟩ := hd
    obtain ⟨hab, hhr, hcr⟩ := hc
    intro r hr
    rcases List.mem_cons.mp hr with h | h
    · subst h; exact hh
    · exact ih hcr (hlb_mono (by exact le_trans hh (by omega)) hhr) r h

/-- Every element of a chain list is a proper interval. -/
theorem chainF_proper {t : List (Int × Int)} (hc : chainF t) :
    ∀ r ∈ t, r.1 ≤ r.2 := by
  induction t with
  | nil => intro r hr; cases hr
  | cons hd rest ih =>
    obtain ⟨a, b⟩ := hd
    obtain ⟨hab, hhr, hcr⟩ := hc
    intro r hr
    rcases List.mem_cons.mp hr with h | h
    · subst h; exact hab
    · exact ih hcr r h

theorem fragAux_chain :
    ∀ (l : List (Int × Int)) (a1 b1 : Int), a1 ≤ b1 → chainF l →
      chainF (fragAux a1 b1 l) ∧
      ∀ x, x ≤ a1 → hlb x l → hlb x (fragAux a1 b1 l) := by
  intro l
  induction l with
  | nil =>
    intro a1 b1 h1 _
    exact ⟨⟨h1, trivial, trivial⟩, fun x hx _ => hx⟩
  | cons hd rest ih =>
    obtain ⟨a0, b0⟩ := hd
    intro a1 b1 h1 hc
    obtain ⟨hab, hh, hcr⟩ := hc
    by_cases hA : a0 ≤ a1
    · by_cases hA1 : b0 < a1
      · -- keep old, continue
        obtain ⟨ihc, ihh⟩ := ih a1 b1 h1 hcr
        rw [fragAux, if_pos hA, if_pos hA1]
        constructor
        · simp only [chainF, hlb]
          refine ⟨hab, ihh (b0 + 1) (by omega) hh, ihc⟩
        · intro x hx hxl
          simp only [hlb] at hxl ⊢
          omega
      · by_cases hA2 : b1 ≤ b0
        · -- old covers new: one, two or three pieces
          rw [fragAux, if_pos hA, if_neg hA1, if_pos hA2]
          constructor
          · by_cases hs1 : a0 < a1 <;> by_cases hs2 : b1 < b0 <;>
              simp only [if_pos, if_neg, hs1, hs2, ite_true, ite_false,
                List.singleton_append, List.nil_append, List.cons_append,
                List.append_assoc, chainF, hlb] <;>
              refine ?_ <;> repeat' apply And.intro
            all_goals
              first
                | omega
                | exact hcr
                | exact hlb_mono (by omega) hh
          · intro x hx hxl
            by_cases hs1 : a0 < a1 <;> by_cases hs2 : b1 < b0 <;>
              simp only [if_pos, if_neg, hs1, hs2, ite_true, ite_false,
                List.singleton_append, List.nil_append, List.cons_append,
                List.append_assoc, hlb] at hxl ⊢ <;> omega
        · -- split old, continue with the extension
          obtain ⟨ihc, ihh⟩ := ih (b0 + 1) b1 (by omega) hcr
          rw [fragAux, if_pos hA, if_neg hA1, if_neg hA2]
          constructor
          · by_cases hs1 : a0 < a1 <;>
              simp only [if_pos, if_neg, hs1, ite_true, ite_false,
                List.singleton_append, List.nil_append, List.cons_append,
                List.append_assoc, chainF, hlb] <;>
              refine ?_ <;> repeat' apply And.intro
            all_goals
              first
                | omega
                | exact ihc
                | exact ihh (b0 + 1) (by omega) hh
          · intro x hx hxl
            by_cases hs1 : a0 < a1 <;>
              simp only [if_pos, if_neg, hs1, ite_true, ite_false,
                List.singleton_append, List.nil_append, List.cons_append,
                List.append_assoc, hlb] at hxl ⊢ <;> omega
    · by_cases hB1 : b1 < a0
      · -- both, slurp
        rw [fragAux, if_neg hA, if_pos hB1]
        constructor
        · simp only [chainF, hlb]
          refine ⟨h1, by omega, hab, hh, hcr⟩
        · intro x hx hxl
          simp only [hlb] at hxl ⊢
          omega
      · by_cases hB2 : b0 ≤ b1
        · -- new covers old: split, maybe continue
          rw [fragAux, if_neg hA, if_neg hB1, if_pos hB2]
          constructor
          · by_cases hs : b0 < b1
            · obtain ⟨ihc, ihh⟩ := ih (b0 + 1) b1 (by omega) hcr
              simp only [if_pos hs, chainF, hlb]
              refine ⟨by omega, by omega, hab, ihh (b0 + 1) (by omega) hh, ihc⟩
            · simp only [if_neg hs, chainF, hlb]
              refine ⟨by omega, by omega, hab, hlb_mono (by omega) hh, hcr⟩
          · intro x hx hxl
            simp only [hlb]
            omega
        · -- split and slurp
          rw [fragAux, if_neg hA, if_neg hB1, if_neg hB2]
          constructor
          · simp only [chainF, hlb]
            refine ⟨by omega, by omega, by omega, by omega, by omega, hh, hcr⟩
          · intro x hx hxl
            simp only [hlb]
            omega

end Lepl

namespace Lepl

/-- No point strictly below the head lower bound of a chain list is
covered by it. -/
theorem not_covers_of_lt {rest : List (Int × Int)} (hcr : chainF rest)
    {x : Int} (hh : hlb x rest) {p : Int} (hp : p < x) : ¬covers rest p := by
  intro h
  obtain ⟨r0, hm, h1, h2⟩ := covers_exists h
  have := chainF_allGe hcr hh r0 hm
  omega

theorem fragAux_covers :
    ∀ (l : List (Int × Int)) (a1 b1 : Int), a1 ≤ b1 → chainF l →
      ∀ p, covers (fragAux a1 b1 l) p ↔ covers l p ∨ (a1 ≤ p ∧ p ≤ b1) := by
  intro l
  induction l with
  | nil =>
    intro a1 b1 h1 _ p
    simp [fragAux, covers]
  | cons hd rest ih =>
    obtain ⟨a0, b0⟩ := hd
    intro a1 b1 h1 hc p
    obtain ⟨hab, hh, hcr⟩ := hc
    by_cases hA : a0 ≤ a1
    · by_cases hA1 : b0 < a1
      · rw [fragAux, if_pos hA, if_pos hA1]
        have hrec := ih a1 b1 h1 hcr p
        simp only [covers, hrec]
        by_cases hcov : covers rest p <;> simp only [hcov] <;> tauto
      · by_cases hA2 : b1 ≤ b0
        · rw [fragAux, if_pos hA, if_neg hA1, if_pos hA2]
          by_cases hs1 : a0 < a1 <;> by_cases hs2 : b1 < b0 <;>
            simp only [hs1, hs2, ite_true, ite_false, List.singleton_append,
              List.nil_append, List.cons_append, List.append_assoc, covers] <;>
            by_cases hcov : covers rest p <;>
            simp only [hcov, or_true, true_or, or_false, false_or, and_true,
            true_and, iff_true, true_iff, iff_false, false_iff] <;>
            omega
        · rw [fragAux, if_pos hA, if_neg hA1, if_neg hA2]
          have hrec := ih (b0 + 1) b1 (by omega) hcr p
          by_cases hs1 : a0 < a1 <;>
            simp only [hs1, ite_true, ite_false, List.singleton_append,
              List.nil_append, List.cons_append, List.append_assoc, covers,
              hrec] <;>
            by_cases hcov : covers rest p <;>
            simp only [hcov, or_true, true_or, or_false, false_or, and_true,
            true_and, iff_true, true_iff, iff_false, false_iff] <;>
            omega
    · by_cases hB1 : b1 < a0
      · rw [fragAux, if_neg hA, if_pos hB1]
        simp only [covers]
        tauto
      · by_cases hB2 : b0 ≤ b1
        · rw [fragAux, if_neg hA, if_neg hB1, if_pos hB2]
          by_cases hs : b0 < b1
          · have hrec := ih (b0 + 1) b1 (by omega) hcr p
            simp only [hs, ite_true, covers, hrec]
            by_cases hcov : covers rest p <;>
              simp only [hcov, or_true, true_or, or_false, false_or, and_true,
                true_and, iff_true, true_iff, iff_false, false_iff] <;>
              omega
          · simp only [hs, ite_false, covers]
            by_cases hcov : covers rest p <;>
              simp only [hcov, or_true, true_or, or_false, false_or, and_true,
                true_and, iff_true, true_iff, iff_false, false_iff] <;>
              omega
        · rw [fragAux, if_neg hA, if_neg hB1, if_neg hB2]
          simp only [covers]
          by_cases hcov : covers rest p <;>
            simp only [hcov, or_true, true_or, or_false, false_or, and_true,
              true_and, iff_true, true_iff, iff_false, false_iff] <;>
            omega

end Lepl

namespace Lepl

/-- Structure of the intervals produced by one `Fragments.__append`: every
result interval is a sub-interval of an existing interval or a fresh piece
of the new interval lying in a gap of the existing ones; and every result
interval lies inside the new interval or wholly outside it. -/
theorem fragAux_pieces :
    ∀ (l : List (Int × Int)) (a1 b1 : Int), a1 ≤ b1 → chainF l →
      ∀ r ∈ fragAux a1 b1 l,
        ((∃ r0 ∈ l, r0.1 ≤ r.1 ∧ r.2 ≤ r0.2) ∨
          (a1 ≤ r.1 ∧ r.2 ≤ b1 ∧ ∀ p, r.1 ≤ p → p ≤ r.2 → ¬covers l p)) ∧
        (r.2 < a1 ∨ b1 < r.1 ∨ (a1 ≤ r.1 ∧ r.2 ≤ b1)) := by
  intro l
  induction l with
  | nil =>
    intro a1 b1 h1 _ r hr
    simp only [fragAux, List.mem_singleton] at hr
    subst hr
    exact ⟨Or.inr ⟨le_refl _, le_refl _, fun p _ _ hcv => hcv⟩,
      Or.inr (Or.inr ⟨le_refl _, le_refl _⟩)⟩
  | cons hd rest ih =>
    obtain ⟨a0, b0⟩ := hd
    intro a1 b1 h1 hc r hr
    obtain ⟨hab, hh, hcr⟩ := hc
    have hge : ∀ q ∈ rest, b0 + 1 ≤ q.1 := chainF_allGe hcr hh
    by_cases hA : a0 ≤ a1
    · by_cases hA1 : b0 < a1
      · -- keep old, continue
        rw [fragAux, if_pos hA, if_pos hA1] at hr
        rcases List.mem_cons.mp hr with h | hmem
        · subst h
          exact ⟨Or.inl ⟨(a0, b0), List.mem_cons_self _ _, le_refl _, le_refl _⟩,
            Or.inl (by omega)⟩
        · obtain ⟨hp, hio⟩ := ih a1 b1 h1 hcr r hmem
          refine ⟨?_, hio⟩
          rcases hp with ⟨r0, hr0, h01, h02⟩ | ⟨hx1, hx2, hnc⟩
          · exact Or.inl ⟨r0, List.mem_cons_of_mem _ hr0, h01, h02⟩
          · refine Or.inr ⟨hx1, hx2, ?_⟩
            intro p hp1 hp2 hcv
            rcases hcv with ⟨hpa, hpb⟩ | hcv
            · omega
            · exact hnc p hp1 hp2 hcv
      · by_cases hA2 : b1 ≤ b0
        · -- old covers new
          rw [fragAux, if_pos hA, if_neg hA1, if_pos hA2] at hr
          by_cases hs1 : a0 < a1 <;> by_cases hs2 : b1 < b0 <;>
            simp only [hs1, hs2, ite_true, ite_false, List.singleton_append,
              List.nil_append, List.cons_append, List.append_assoc,
              List.mem_cons] at hr
          · rcases hr with h | h | h | hmem
            · subst h
              exact ⟨Or.inl ⟨(a0, b0), List.mem_cons_self _ _, by omega, by omega⟩,
                Or.inl (by omega)⟩
            · subst h
              exact ⟨Or.inl ⟨(a0, b0), List.mem_cons_self _ _, by omega, by omega⟩,
                Or.inr (Or.inr ⟨by omega, by omega⟩)⟩
            · subst h
              exact ⟨Or.inl ⟨(a0, b0), List.mem_cons_self _ _, by omega, by omega⟩,
                Or.inr (Or.inl (by omega))⟩
            · have := hge r hmem
              exact ⟨Or.inl ⟨r, List.mem_cons_of_mem _ hmem, le_refl _, le_refl _⟩,
                Or.inr (Or.inl (by omega))⟩
          · rcases hr with h | h | hmem
            · subst h
              exact ⟨Or.inl ⟨(a0, b0), List.mem_cons_self _ _, by omega, by omega⟩,
                Or.inl (by omega)⟩
            · subst h
              exact ⟨Or.inl ⟨(a0, b0), List.mem_cons_self _ _, by omega, by omega⟩,
                Or.inr (Or.inr ⟨by omega, by omega⟩)⟩
            · have := hge r hmem
              exact ⟨Or.inl ⟨r, List.mem_cons_of_mem _ hmem, le_refl _, le_refl _⟩,
                Or.inr (Or.inl (by omega))⟩
          · rcases hr with h | h | hmem
            · subst h
              exact ⟨Or.inl ⟨(a0, b0), List.mem_cons_self _ _, by omega, by omega⟩,
                Or.inr (Or.inr ⟨by omega, by omega⟩)⟩
            · subst h
              exact ⟨Or.inl ⟨(a0, b0), List.mem_cons_self _ _, by omega, by omega⟩,
                Or.inr (Or.inl (by omega))⟩
            · have := hge r hmem
              exact ⟨Or.inl ⟨r, List.mem_cons_of_mem _ hmem, le_refl _, le_refl _⟩,
                Or.inr (Or.inl (by omega))⟩
          · rcases hr with h | hmem
            · subst h
              exact ⟨Or.inl ⟨(a0, b0), List.mem_cons_self _ _, by omega, by omega⟩,
                Or.inr (Or.inr ⟨by omega, by omega⟩)⟩
            · have := hge r hmem
              exact ⟨Or.inl ⟨r, List.mem_cons_of_mem _ hmem, le_refl _, le_refl _⟩,
                Or.inr (Or.inl (by omega))⟩
        · -- split old, continue with the extension
          rw [fragAux, if_pos hA, if_neg hA1, if_neg hA2] at hr
          have hpr : ∀ q ∈ fragAux (b0 + 1) b1 rest, q.1 ≤ q.2 :=
            chainF_proper (fragAux_chain rest (b0 + 1) b1 (by omega) hcr).1
          have haux : ∀ q ∈ fragAux (b0 + 1) b1 rest,
              ((∃ r0 ∈ ((a0, b0) :: rest), r0.1 ≤ q.1 ∧ q.2 ≤ r0.2) ∨
                (a1 ≤ q.1 ∧ q.2 ≤ b1 ∧
                  ∀ p, q.1 ≤ p → p ≤ q.2 → ¬covers ((a0, b0) :: rest) p)) ∧
              (q.2 < a1 ∨ b1 < q.1 ∨ (a1 ≤ q.1 ∧ q.2 ≤ b1)) := by
            intro q hq
            obtain ⟨hp, hio⟩ := ih (b0 + 1) b1 (by omega) hcr q hq
            have hq12 : q.1 ≤ q.2 := hpr q hq
            have hqlo : b0 + 1 ≤ q.1 := by
              rcases hp with ⟨r0, hr0, h01, h02⟩ | ⟨hx1, _, _⟩
              · have := hge r0 hr0
                omega
              · omega
            constructor
            · rcases hp with ⟨r0, hr0, h01, h02⟩ | ⟨hx1, hx2, hnc⟩
              · exact Or.inl ⟨r0, List.mem_cons_of_mem _ hr0, h01, h02⟩
              · refine Or.inr ⟨by omega, hx2, ?_⟩
                intro p hp1 hp2 hcv
                rcases hcv with ⟨hpa, hpb⟩ | hcv
                · omega
                · exact hnc p hp1 hp2 hcv
            · rcases hio with h | h | h
              · omega
              · exact Or.inr (Or.inl h)
              · exact Or.inr (Or.inr ⟨by omega, h.2⟩)
          by_cases hs1 : a0 < a1 <;>
            simp only [hs1, ite_true, ite_false, List.singleton_append,
              List.nil_append, List.cons_append, List.append_assoc,
              List.mem_cons] at hr
          · rcases hr with h | h | hmem
            · subst h
              exact ⟨Or.inl ⟨(a0, b0), List.mem_cons_self _ _, by omega, by omega⟩,
                Or.inl (by omega)⟩
            · subst h
              exact ⟨Or.inl ⟨(a0, b0), List.mem_cons_self _ _, by omega, by omega⟩,
                Or.inr (Or.inr ⟨by omega, by omega⟩)⟩
            · exact haux r hmem
          · rcases hr with h | hmem
            · subst h
              exact ⟨Or.inl ⟨(a0, b0), List.mem_cons_self _ _, by omega, by omega⟩,
                Or.inr (Or.inr ⟨by omega, by omega⟩)⟩
            · exact haux r hmem
    · by_cases hB1 : b1 < a0
      · -- new wholly before old
        rw [fragAux, if_neg hA, if_pos hB1] at hr
        rcases List.mem_cons.mp hr with h | hr2
        · subst h
          refine ⟨Or.inr ⟨le_refl _, le_refl _, ?_⟩,
            Or.inr (Or.inr ⟨le_refl _, le_refl _⟩)⟩
          intro p hp1 hp2 hcv
          rcases hcv with ⟨hpa, hpb⟩ | hcv
          · omega
          · exact not_covers_of_lt hcr hh (by omega) hcv
        · rcases List.mem_cons.mp hr2 with h | hmem
          · subst h
            exact ⟨Or.inl ⟨(a0, b0), List.mem_cons_self _ _, le_refl _, le_refl _⟩,
              Or.inr (Or.inl (by omega))⟩
          · have := hge r hmem
            exact ⟨Or.inl ⟨r, List.mem_cons_of_mem _ hmem, le_refl _, le_refl _⟩,
              Or.inr (Or.inl (by omega))⟩
      · by_cases hB2 : b0 ≤ b1
        · -- new covers old: split, maybe continue
          rw [fragAux, if_neg hA, if_neg hB1, if_pos hB2] at hr
          have hfirst : ((∃ r0 ∈ ((a0, b0) :: rest),
                r0.1 ≤ (a1, a0 - 1).1 ∧ (a1, a0 - 1).2 ≤ r0.2) ∨
              (a1 ≤ (a1, a0 - 1).1 ∧ (a1, a0 - 1).2 ≤ b1 ∧
                ∀ p, (a1, a0 - 1).1 ≤ p → p ≤ (a1, a0 - 1).2 →
                  ¬covers ((a0, b0) :: rest) p)) ∧
              ((a1, a0 - 1).2 < a1 ∨ b1 < (a1, a0 - 1).1 ∨
                (a1 ≤ (a1, a0 - 1).1 ∧ (a1, a0 - 1).2 ≤ b1)) := by
            refine ⟨Or.inr ⟨le_refl _, by omega, ?_⟩,
              Or.inr (Or.inr ⟨le_refl _, by omega⟩)⟩
            intro p hp1 hp2 hcv
            rcases hcv with ⟨hpa, hpb⟩ | hcv
            · omega
            · exact not_covers_of_lt hcr hh (by omega) hcv
          by_cases hs : b0 < b1
          · simp only [hs, ite_true, List.mem_cons] at hr
            rcases hr with h | h | hmem
            · subst h; exact hfirst
            · subst h
              exact ⟨Or.inl ⟨(a0, b0), List.mem_cons_self _ _, le_refl _, le_refl _⟩,
                Or.inr (Or.inr ⟨by omega, by omega⟩)⟩
            · have hpr : ∀ q ∈ fragAux (b0 + 1) b1 rest, q.1 ≤ q.2 :=
                chainF_proper (fragAux_chain rest (b0 + 1) b1 (by omega) hcr).1
              obtain ⟨hp, hio⟩ := ih (b0 + 1) b1 (by omega) hcr r hmem
              have hq12 : r.1 ≤ r.2 := hpr r hmem
              have hqlo : b0 + 1 ≤ r.1 := by
                rcases hp with ⟨r0, hr0, h01, h02⟩ | ⟨hx1, _, _⟩
                · have := hge r0 hr0
                  omega
                · omega
              constructor
              · rcases hp with ⟨r0, hr0, h01, h02⟩ | ⟨hx1, hx2, hnc⟩
                · exact Or.inl ⟨r0, List.mem_cons_of_mem _ hr0, h01, h02⟩
                · refine Or.inr ⟨by omega, hx2, ?_⟩
                  intro p hp1 hp2 hcv
                  rcases hcv with ⟨hpa, hpb⟩ | hcv
                  · omega
                  · exact hnc p hp1 hp2 hcv
              · rcases hio with h | h | h
                · omega
                · exact Or.inr (Or.inl h)
                · exact Or.inr (Or.inr ⟨by omega, h.2⟩)
          · simp only [hs, ite_false, List.mem_cons] at hr
            rcases hr with h | h | hmem
            · subst h; exact hfirst
            · subst h
              exact ⟨Or.inl ⟨(a0, b0), List.mem_cons_self _ _, le_refl _, le_refl _⟩,
                Or.inr (Or.inr ⟨by omega, by omega⟩)⟩
            · have := hge r hmem
              exact ⟨Or.inl ⟨r, List.mem_cons_of_mem _ hmem, le_refl _, le_refl _⟩,
                Or.inr (Or.inl (by omega))⟩
        · -- new starts before old, partial overlap
          rw [fragAux, if_neg hA, if_neg hB1, if_neg hB2] at hr
          simp only [List.mem_cons] at hr
          rcases hr with h | h | h | hmem
          · subst h
            refine ⟨Or.inr ⟨le_refl _, by omega, ?_⟩,
              Or.inr (Or.inr ⟨le_refl _, by omega⟩)⟩
            intro p hp1 hp2 hcv
            rcases hcv with ⟨hpa, hpb⟩ | hcv
            · omega
            · exact not_covers_of_lt hcr hh (by omega) hcv
          · subst h
            exact ⟨Or.inl ⟨(a0, b0), List.mem_cons_self _ _, le_refl _, by omega⟩,
              Or.inr (Or.inr ⟨by omega, le_refl _⟩)⟩
          · subst h
            exact ⟨Or.inl ⟨(a0, b0), List.mem_cons_self _ _, by omega, le_refl _⟩,
              Or.inr (Or.inl (by omega))⟩
          · have := hge r hmem
            exact ⟨Or.inl ⟨r, List.mem_cons_of_mem _ hmem, le_refl _, le_refl _⟩,
              Or.inr (Or.inl (by omega))⟩

end Lepl

namespace Lepl

/-- Canonicalize a possibly reversed interval, as done on insert. -/
def norm (iv : Int × Int) : Int × Int := if iv.2 < iv.1 then (iv.2, iv.1) else iv

/-- A point is covered by one of the (canonicalized) input intervals. -/
def coversN : List (Int × Int) → Int → Prop
  | [], _ => False
  | iv :: t, p => ((norm iv).1 ≤ p ∧ p ≤ (norm iv).2) ∨ coversN t p

/-- `r` lies inside `iv` or wholly outside it. -/
def IOO (r iv : Int × Int) : Prop :=
  (iv.1 ≤ r.1 ∧ r.2 ≤ iv.2) ∨ r.2 < iv.1 ∨ iv.2 < r.1

theorem norm_proper (iv : Int × Int) : (norm iv).1 ≤ (norm iv).2 := by
  obtain ⟨a, b⟩ := iv
  unfold norm
  split_ifs <;> simp <;> omega

theorem fragAppend_eq (l : List (Int × Int)) (iv : Int × Int) :
    fragAppend l iv = fragAux (norm iv).1 (norm iv).2 l := by
  obtain ⟨a, b⟩ := iv
  unfold fragAppend norm
  split_ifs <;> rfl

theorem coversN_append (l1 l2 : List (Int × Int)) (p : Int) :
    coversN (l1 ++ l2) p ↔ coversN l1 p ∨ coversN l2 p := by
  induction l1 with
  | nil => simp [coversN]
  | cons hd t ih => simp [coversN, ih, or_assoc]

theorem coversN_of_mem {P : List (Int × Int)} {iv : Int × Int} (h : iv ∈ P)
    {p : Int} (h1 : (norm iv).1 ≤ p) (h2 : p ≤ (norm iv).2) : coversN P p := by
  induction P with
  | nil => cases h
  | cons hd t ih =>
    rcases List.mem_cons.mp h with h | h
    · subst h
      exact Or.inl ⟨h1, h2⟩
    · exact Or.inr (ih h)

/-- The invariant of a Fragments run: the stored list is a chain, covers
exactly the union of the inputs processed so far, and refines every input
processed so far. -/
def fragInv (P R : List (Int × Int)) : Prop :=
  chainF R ∧ (∀ p, covers R p ↔ coversN P p) ∧
  (∀ r ∈ R, ∀ iv ∈ P, IOO r (norm iv))

theorem fragInv_step {P R : List (Int × Int)} (iv : Int × Int)
    (h : fragInv P R) : fragInv (P ++ [iv]) (fragAppend R iv) := by
  obtain ⟨hch, hcov, hioo⟩ := h
  have hab : (norm iv).1 ≤ (norm iv).2 := norm_proper iv
  rw [fragAppend_eq]
  refine ⟨(fragAux_chain R (norm iv).1 (norm iv).2 hab hch).1, ?_, ?_⟩
  · intro p
    rw [fragAux_covers R (norm iv).1 (norm iv).2 hab hch p, hcov p,
      coversN_append]
    simp [coversN]
  · intro r hrm q hq
    obtain ⟨hp, hio⟩ := fragAux_pieces R (norm iv).1 (norm iv).2 hab hch r hrm
    rcases List.mem_append.mp hq with hq | hq
    · rcases hp with ⟨r0, hr0, h01, h02⟩ | ⟨hx1, hx2, hnc⟩
      · have hq0 := hioo r0 hr0 q hq
        unfold IOO at hq0 ⊢
        omega
      · have hr12 : r.1 ≤ r.2 :=
          chainF_proper (fragAux_chain R (norm iv).1 (norm iv).2 hab hch).1 r hrm
        have hq12 : (norm q).1 ≤ (norm q).2 := norm_proper q
        unfold IOO
        rcases lt_or_le r.2 (norm q).1 with hlt | hle
        · exact Or.inr (Or.inl hlt)
        · rcases lt_or_le (norm q).2 r.1 with hlt2 | hle2
          · exact Or.inr (Or.inr hlt2)
          · exfalso
            have hcovp : coversN P (max r.1 (norm q).1) :=
              coversN_of_mem hq (le_max_right _ _) (by omega)
            have hcovR : covers R (max r.1 (norm q).1) := (hcov _).mpr hcovp
            exact hnc _ (le_max_left _ _) (by omega) hcovR
    · have hq2 : q = iv := by simpa using hq
      subst hq2
      unfold IOO
      rcases hio with h | h | h
      · exact Or.inr (Or.inl h)
      · exact Or.inr (Or.inr h)
      · exact Or.inl h

theorem fragInv_fold :
    ∀ (ivs P R : List (Int × Int)), fragInv P R →
      fragInv (P ++ ivs) (ivs.foldl fragAppend R) := by
  intro ivs
  induction ivs with
  | nil => intro P R h; simpa using h
  | cons iv rest ih =>
    intro P R h
    have h2 := fragInv_step iv h
    have h3 := ih (P ++ [iv]) (fragAppend R iv) h2
    simpa using h3

theorem fragInv_init : fragInv [] [] :=
  ⟨trivial, fun p => by simp [covers, coversN], fun r hr => by cases hr⟩

/-- Claim C3: after appending intervals C1..Cn to a Fragments, every input
interval is exactly covered by the union of the result intervals lying
inside it, and no result interval spans a boundary of any input interval
(each result interval is inside or wholly outside each input). -/
theorem claim_C3_fragments_refinement (ivs : List (Int × Int))
    (iv : Int × Int) (hmem : iv ∈ ivs) :
    (∀ p, ((norm iv).1 ≤ p ∧ p ≤ (norm iv).2) ↔
      ∃ r ∈ fragsOfIntervals ivs,
        (norm iv).1 ≤ r.1 ∧ r.2 ≤ (norm iv).2 ∧ r.1 ≤ p ∧ p ≤ r.2) ∧
    (∀ r ∈ fragsOfIntervals ivs,
      ((norm iv).1 ≤ r.1 ∧ r.2 ≤ (norm iv).2) ∨
        r.2 < (norm iv).1 ∨ (norm iv).2 < r.1) := by
  have hinv := fragInv_fold ivs [] [] fragInv_init
  rw [List.nil_append] at hinv
  obtain ⟨hch, hcov, hioo⟩ := hinv
  constructor
  · intro p
    constructor
    · intro hcont
      have hcN : coversN ivs p := coversN_of_mem hmem hcont.1 hcont.2
      have hcR : covers (fragsOfIntervals ivs) p := (hcov p).mpr hcN
      obtain ⟨r, hr, hr1, hr2⟩ := covers_exists hcR
      have hio := hioo r hr iv hmem
      unfold IOO at hio
      refine ⟨r, hr, ?_, ?_, hr1, hr2⟩ <;> omega
    · intro ⟨r, _, h1, h2, h3, h4⟩
      omega
  · intro r hr
    exact hioo r hr iv hmem

/-- Witness for C3 at concrete inputs, with the second input reversed. -/
theorem claim_C3_fragments_refinement_witness :
    ((9 : Int), (3 : Int)) ∈ [((1 : Int), (5 : Int)), (9, 3)] ∧
    (∀ p, ((norm ((9 : Int), (3 : Int))).1 ≤ p ∧ p ≤ (norm (9, 3)).2) ↔
      ∃ r ∈ fragsOfIntervals [(1, 5), (9, 3)],
        (norm ((9 : Int), (3 : Int))).1 ≤ r.1 ∧ r.2 ≤ (norm (9, 3)).2 ∧
          r.1 ≤ p ∧ p ≤ r.2) ∧
    (∀ r ∈ fragsOfIntervals [((1 : Int), (5 : Int)), (9, 3)],
      ((norm ((9 : Int), (3 : Int))).1 ≤ r.1 ∧ r.2 ≤ (norm (9, 3)).2) ∨
        r.2 < (norm ((9 : Int), (3 : Int))).1 ∨ (norm (9, 3)).2 < r.1) := by
  have hmem : ((9 : Int), (3 : Int)) ∈ [((1 : Int), (5 : Int)), (9, 3)] := by
    decide
  have h := claim_C3_fragments_refinement [(1, 5), (9, 3)] (9, 3) hmem
  exact ⟨hmem, h.1, h.2⟩

end Lepl

namespace Lepl

/-! ### TaggedFragments (src/lepl/regexp/interval.py)

Like Fragments, but each interval carries a list of tag values;
overlapping pieces concatenate the existing tags with the new one
(`v0 + v1`), preserving insertion order. -/

/-- The loop of `TaggedFragments.__append`: insert `([a1, b1], v1)`,
splitting at overlap boundaries and concatenating tag lists on overlap.
Each branch mirrors one branch of the Python loop body. -/
def tagAux {τ : Type} :
    Int → Int → List τ → List ((Int × Int) × List τ) →
      List ((Int × Int) × List τ)
  | a1, b1, v1, [] => [((a1, b1), v1)]
  | a1, b1, v1, ((a0, b0), v0) :: rest =>
    if a0 ≤ a1 then
      if b0 < a1 then
        ((a0, b0), v0) :: tagAux a1 b1 v1 rest
      else if b1 ≤ b0 then
        (if a0 < a1 then [((a0, a1 - 1), v0)] else []) ++
          [((a1, b1), v0 ++ v1)] ++
          (if b1 < b0 then [((b1 + 1, b0), v0)] else []) ++ rest
      else
        (if a0 < a1 then [((a0, a1 - 1), v0)] else []) ++
          [((a1, b0), v0 ++ v1)] ++ tagAux (b0 + 1) b1 v1 rest
    else
      if b1 < a0 then
        ((a1, b1), v1) :: ((a0, b0), v0) :: rest
      else if b0 ≤ b1 then
        ((a1, a0 - 1), v1) :: ((a0, b0), v0 ++ v1) ::
          (if b0 < b1 then tagAux (b0 + 1) b1 v1 rest else rest)
      else
        ((a1, a0 - 1), v1) :: ((a0, b1), v0 ++ v1) :: ((b1 + 1, b0), v0) :: rest

/-- `TaggedFragments.append` for one (interval, tag) input: each appended
character interval is inserted with the one-element tag list `[value]`. -/
def tagAppend {τ : Type} (l : List ((Int × Int) × List τ))
    (ivt : (Int × Int) × τ) : List ((Int × Int) × List τ) :=
  tagAux (norm ivt.1).1 (norm ivt.1).2 [ivt.2] l

/-- The tagged interval list built from a sequence of (interval, tag)
appends into an empty TaggedFragments. -/
def taggedOfInputs {τ : Type} (inputs : List ((Int × Int) × τ)) :
    List ((Int × Int) × List τ) :=
  inputs.foldl tagAppend []

/-- The tags of all inputs whose (canonicalized) interval covers `r`, in
insertion order. -/
def tagsOf {τ : Type} (inputs : List ((Int × Int) × τ)) (r : Int × Int) :
    List τ :=
  (inputs.filter (fun q =>
    decide ((norm q.1).1 ≤ r.1) && decide (r.2 ≤ (norm q.1).2))).map
    (fun q => q.2)

/-- The intervals produced by `TaggedFragments.__append` are exactly those
produced by `Fragments.__append` on the same input intervals. -/
theorem tagAux_map_fst {τ : Type} :
    ∀ (l : List ((Int × Int) × List τ)) (a1 b1 : Int) (v1 : List τ),
      (tagAux a1 b1 v1 l).map Prod.fst = fragAux a1 b1 (l.map Prod.fst) := by
  intro l
  induction l with
  | nil => intro a1 b1 v1; rfl
  | cons hd rest ih =>
    obtain ⟨⟨a0, b0⟩, v0⟩ := hd
    intro a1 b1 v1
    simp only [tagAux, fragAux, List.map_cons]
    by_cases hA : a0 ≤ a1
    · by_cases hA1 : b0 < a1
      · simp [hA, hA1, ih]
      · by_cases hA2 : b1 ≤ b0
        · by_cases hs1 : a0 < a1 <;> by_cases hs2 : b1 < b0 <;>
            simp [hA, hA1, hA2, hs1, hs2]
        · by_cases hs1 : a0 < a1 <;> simp [hA, hA1, hA2, hs1, ih]
    · by_cases hB1 : b1 < a0
      · simp [hA, hB1]
      · by_cases hB2 : b0 ≤ b1
        · by_cases hs : b0 < b1 <;> simp [hA, hB1, hB2, hs, ih]
        · simp [hA, hB1, hB2]

end Lepl

namespace Lepl

/-- Structure of the entries produced by one `TaggedFragments.__append`:
every result entry is an old entry's sub-interval with the same tags
(wholly outside the new interval), or an old entry's sub-interval inside
the new interval with the new tag list appended, or a fresh piece of the
new interval in a gap of the existing ones carrying only the new tags. -/
theorem tagAux_pieces {τ : Type} :
    ∀ (l : List ((Int × Int) × List τ)) (a1 b1 : Int) (v1 : List τ),
      a1 ≤ b1 → chainF (l.map Prod.fst) →
      ∀ e ∈ tagAux a1 b1 v1 l,
        (∃ e0 ∈ l, e0.1.1 ≤ e.1.1 ∧ e.1.2 ≤ e0.1.2 ∧ e.2 = e0.2 ∧
          (e.1.2 < a1 ∨ b1 < e.1.1)) ∨
        (∃ e0 ∈ l, e0.1.1 ≤ e.1.1 ∧ e.1.2 ≤ e0.1.2 ∧ e.2 = e0.2 ++ v1 ∧
          a1 ≤ e.1.1 ∧ e.1.2 ≤ b1) ∨
        (a1 ≤ e.1.1 ∧ e.1.2 ≤ b1 ∧ e.2 = v1 ∧
          ∀ p, e.1.1 ≤ p → p ≤ e.1.2 → ¬covers (l.map Prod.fst) p) := by
  intro l
  induction l with
  | nil =>
    intro a1 b1 v1 h1 _ e he
    simp only [tagAux, List.mem_singleton] at he
    subst he
    exact Or.inr (Or.inr ⟨le_refl _, le_refl _, rfl, fun p _ _ hcv => hcv⟩)
  | cons hd rest ih =>
    obtain ⟨⟨a0, b0⟩, v0⟩ := hd
    intro a1 b1 v1 h1 hc e he
    simp only [List.map_cons] at hc
    obtain ⟨hab, hh, hcr⟩ := hc
    have hge : ∀ q ∈ rest, b0 + 1 ≤ q.1.1 := fun q hq =>
      chainF_allGe hcr hh q.1 (List.mem_map_of_mem Prod.fst hq)
    by_cases hA : a0 ≤ a1
    · by_cases hA1 : b0 < a1
      · -- keep old, continue
        rw [tagAux, if_pos hA, if_pos hA1] at he
        rcases List.mem_cons.mp he with h | hmem
        · subst h
          exact Or.inl ⟨((a0, b0), v0), List.mem_cons_self _ _, le_refl _,
            le_refl _, rfl, Or.inl (by first | omega | (dsimp only; omega))⟩
        · rcases ih a1 b1 v1 h1 hcr e hmem with
            ⟨e0, he0, h01, h02, h03, h04⟩ | ⟨e0, he0, h01, h02, h03, h04⟩ |
              ⟨hx1, hx2, hx3, hnc⟩
          · exact Or.inl ⟨e0, List.mem_cons_of_mem _ he0, h01, h02, h03, h04⟩
          · exact Or.inr (Or.inl ⟨e0, List.mem_cons_of_mem _ he0, h01, h02,
              h03, h04⟩)
          · refine Or.inr (Or.inr ⟨hx1, hx2, hx3, ?_⟩)
            intro p hp1 hp2 hcv
            try dsimp only at hp1 hp2
            simp only [List.map_cons] at hcv ⊢
            rcases hcv with ⟨hpa, hpb⟩ | hcv
            · omega
            · exact hnc p hp1 hp2 hcv
      · by_cases hA2 : b1 ≤ b0
        · -- old covers new
          rw [tagAux, if_pos hA, if_neg hA1, if_pos hA2] at he
          by_cases hs1 : a0 < a1 <;> by_cases hs2 : b1 < b0 <;>
            simp only [hs1, hs2, ite_true, ite_false, List.singleton_append,
              List.nil_append, List.cons_append, List.append_assoc,
              List.mem_cons] at he
          · rcases he with h | h | h | hmem
            · subst h
              exact Or.inl ⟨((a0, b0), v0), List.mem_cons_self _ _, by first | omega | (dsimp only; omega),
                by first | omega | (dsimp only; omega), rfl, Or.inl (by first | omega | (dsimp only; omega))⟩
            · subst h
              exact Or.inr (Or.inl ⟨((a0, b0), v0), List.mem_cons_self _ _,
                by first | omega | (dsimp only; omega), by first | omega | (dsimp only; omega), rfl, by first | omega | (dsimp only; omega), by first | omega | (dsimp only; omega)⟩)
            · subst h
              exact Or.inl ⟨((a0, b0), v0), List.mem_cons_self _ _, by first | omega | (dsimp only; omega),
                by first | omega | (dsimp only; omega), rfl, Or.inr (by first | omega | (dsimp only; omega))⟩
            · have := hge e hmem
              exact Or.inl ⟨e, List.mem_cons_of_mem _ hmem, le_refl _,
                le_refl _, rfl, Or.inr (by first | omega | (dsimp only; omega))⟩
          · rcases he with h | h | hmem
            · subst h
              exact Or.inl ⟨((a0, b0), v0), List.mem_cons_self _ _, by first | omega | (dsimp only; omega),
                by first | omega | (dsimp only; omega), rfl, Or.inl (by first | omega | (dsimp only; omega))⟩
            · subst h
              exact Or.inr (Or.inl ⟨((a0, b0), v0), List.mem_cons_self _ _,
                by first | omega | (dsimp only; omega), by first | omega | (dsimp only; omega), rfl, by first | omega | (dsimp only; omega), by first | omega | (dsimp only; omega)⟩)
            · have := hge e hmem
              exact Or.inl ⟨e, List.mem_cons_of_mem _ hmem, le_refl _,
                le_refl _, rfl, Or.inr (by first | omega | (dsimp only; omega))⟩
          · rcases he with h | h | hmem
            · subst h
              exact Or.inr (Or.inl ⟨((a0, b0), v0), List.mem_cons_self _ _,
                by first | omega | (dsimp only; omega), by first | omega | (dsimp only; omega), rfl, by first | omega | (dsimp only; omega), by first | omega | (dsimp only; omega)⟩)
            · subst h
              exact Or.inl ⟨((a0, b0), v0), List.mem_cons_self _ _, by first | omega | (dsimp only; omega),
                by first | omega | (dsimp only; omega), rfl, Or.inr (by first | omega | (dsimp only; omega))⟩
            · have := hge e hmem
              exact Or.inl ⟨e, List.mem_cons_of_mem _ hmem, le_refl _,
                le_refl _, rfl, Or.inr (by first | omega | (dsimp only; omega))⟩
          · rcases he with h | hmem
            · subst h
              exact Or.inr (Or.inl ⟨((a0, b0), v0), List.mem_cons_self _ _,
                by first | omega | (dsimp only; omega), by first | omega | (dsimp only; omega), rfl, by first | omega | (dsimp only; omega), by first | omega | (dsimp only; omega)⟩)
            · have := hge e hmem
              exact Or.inl ⟨e, List.mem_cons_of_mem _ hmem, le_refl _,
                le_refl _, rfl, Or.inr (by first | omega | (dsimp only; omega))⟩
        · -- split old, continue with the extension
          rw [tagAux, if_pos hA, if_neg hA1, if_neg hA2] at he
          have hpr : ∀ q ∈ tagAux (b0 + 1) b1 v1 rest, q.1.1 ≤ q.1.2 := by
            intro q hq
            have hmf : q.1 ∈ fragAux (b0 + 1) b1 (rest.map Prod.fst) := by
              rw [← tagAux_map_fst]
              exact List.mem_map_of_mem Prod.fst hq
            exact chainF_proper
              (fragAux_chain (rest.map Prod.fst) (b0 + 1) b1 (by first | omega | (dsimp only; omega)) hcr).1
              q.1 hmf
          have haux : ∀ q ∈ tagAux (b0 + 1) b1 v1 rest,
              (∃ e0 ∈ (((a0, b0), v0) :: rest), e0.1.1 ≤ q.1.1 ∧
                q.1.2 ≤ e0.1.2 ∧ q.2 = e0.2 ∧ (q.1.2 < a1 ∨ b1 < q.1.1)) ∨
              (∃ e0 ∈ (((a0, b0), v0) :: rest), e0.1.1 ≤ q.1.1 ∧
                q.1.2 ≤ e0.1.2 ∧ q.2 = e0.2 ++ v1 ∧ a1 ≤ q.1.1 ∧ q.1.2 ≤ b1) ∨
              (a1 ≤ q.1.1 ∧ q.1.2 ≤ b1 ∧ q.2 = v1 ∧
                ∀ p, q.1.1 ≤ p → p ≤ q.1.2 →
                  ¬covers ((((a0, b0), v0) :: rest).map Prod.fst) p) := by
            intro q hq
            have hq12 : q.1.1 ≤ q.1.2 := hpr q hq
            rcases ih (b0 + 1) b1 v1 (by first | omega | (dsimp only; omega)) hcr q hq with
              ⟨e0, he0, h01, h02, h03, h04⟩ | ⟨e0, he0, h01, h02, h03, h04⟩ |
                ⟨hx1, hx2, hx3, hnc⟩
            · have := hge e0 he0
              refine Or.inl ⟨e0, List.mem_cons_of_mem _ he0, h01, h02, h03,
                Or.inr ?_⟩
              omega
            · exact Or.inr (Or.inl ⟨e0, List.mem_cons_of_mem _ he0, h01, h02,
                h03, by first | omega | (dsimp only; omega), h04.2⟩)
            · refine Or.inr (Or.inr ⟨by first | omega | (dsimp only; omega), hx2, hx3, ?_⟩)
              intro p hp1 hp2 hcv
              try dsimp only at hp1 hp2
              simp only [List.map_cons] at hcv
              rcases hcv with ⟨hpa, hpb⟩ | hcv
              · omega
              · exact hnc p hp1 hp2 hcv
          by_cases hs1 : a0 < a1 <;>
            simp only [hs1, ite_true, ite_false, List.singleton_append,
              List.nil_append, List.cons_append, List.append_assoc,
              List.mem_cons] at he
          · rcases he with h | h | hmem
            · subst h
              exact Or.inl ⟨((a0, b0), v0), List.mem_cons_self _ _, by first | omega | (dsimp only; omega),
                by first | omega | (dsimp only; omega), rfl, Or.inl (by first | omega | (dsimp only; omega))⟩
            · subst h
              exact Or.inr (Or.inl ⟨((a0, b0), v0), List.mem_cons_self _ _,
                by first | omega | (dsimp only; omega), by first | omega | (dsimp only; omega), rfl, by first | omega | (dsimp only; omega), by first | omega | (dsimp only; omega)⟩)
            · exact haux e hmem
          · rcases he with h | hmem
            · subst h
              exact Or.inr (Or.inl ⟨((a0, b0), v0), List.mem_cons_self _ _,
                by first | omega | (dsimp only; omega), by first | omega | (dsimp only; omega), rfl, by first | omega | (dsimp only; omega), by first | omega | (dsimp only; omega)⟩)
            · exact haux e hmem
    · by_cases hB1 : b1 < a0
      · -- new wholly before old
        rw [tagAux, if_neg hA, if_pos hB1] at he
        rcases List.mem_cons.mp he with h | he2
        · subst h
          refine Or.inr (Or.inr ⟨le_refl _, le_refl _, rfl, ?_⟩)
          intro p hp1 hp2 hcv
          try dsimp only at hp1 hp2
          simp only [List.map_cons] at hcv
          rcases hcv with ⟨hpa, hpb⟩ | hcv
          · omega
          · exact not_covers_of_lt hcr hh (by first | omega | (dsimp only; omega)) hcv
        · rcases List.mem_cons.mp he2 with h | hmem
          · subst h
            exact Or.inl ⟨((a0, b0), v0), List.mem_cons_self _ _, le_refl _,
              le_refl _, rfl, Or.inr (by first | omega | (dsimp only; omega))⟩
          · have := hge e hmem
            exact Or.inl ⟨e, List.mem_cons_of_mem _ hmem, le_refl _,
              le_refl _, rfl, Or.inr (by first | omega | (dsimp only; omega))⟩
      · by_cases hB2 : b0 ≤ b1
        · -- new covers old: split, maybe continue
          rw [tagAux, if_neg hA, if_neg hB1, if_pos hB2] at he
          have hfirst : (a1 ≤ b1 → True) := fun _ => trivial
          by_cases hs : b0 < b1
          · simp only [hs, ite_true, List.mem_cons] at he
            rcases he with h | h | hmem
            · subst h
              refine Or.inr (Or.inr ⟨le_refl _, by first | omega | (dsimp only; omega), rfl, ?_⟩)
              intro p hp1 hp2 hcv
              try dsimp only at hp1 hp2
              simp only [List.map_cons] at hcv
              rcases hcv with ⟨hpa, hpb⟩ | hcv
              · omega
              · exact not_covers_of_lt hcr hh (by first | omega | (dsimp only; omega)) hcv
            · subst h
              exact Or.inr (Or.inl ⟨((a0, b0), v0), List.mem_cons_self _ _,
                le_refl _, le_refl _, rfl, by first | omega | (dsimp only; omega), by first | omega | (dsimp only; omega)⟩)
            · have hpr : ∀ q ∈ tagAux (b0 + 1) b1 v1 rest, q.1.1 ≤ q.1.2 := by
                intro q hq
                have hmf : q.1 ∈ fragAux (b0 + 1) b1 (rest.map Prod.fst) := by
                  rw [← tagAux_map_fst]
                  exact List.mem_map_of_mem Prod.fst hq
                exact chainF_proper
                  (fragAux_chain (rest.map Prod.fst) (b0 + 1) b1 (by first | omega | (dsimp only; omega))
                    hcr).1 q.1 hmf
              have hq12 : e.1.1 ≤ e.1.2 := hpr e hmem
              rcases ih (b0 + 1) b1 v1 (by first | omega | (dsimp only; omega)) hcr e hmem with
                ⟨e0, he0, h01, h02, h03, h04⟩ | ⟨e0, he0, h01, h02, h03, h04⟩ |
                  ⟨hx1, hx2, hx3, hnc⟩
              · have := hge e0 he0
                refine Or.inl ⟨e0, List.mem_cons_of_mem _ he0, h01, h02, h03,
                  Or.inr ?_⟩
                omega
              · exact Or.inr (Or.inl ⟨e0, List.mem_cons_of_mem _ he0, h01,
                  h02, h03, by first | omega | (dsimp only; omega), h04.2⟩)
              · refine Or.inr (Or.inr ⟨by first | omega | (dsimp only; omega), hx2, hx3, ?_⟩)
                intro p hp1 hp2 hcv
                try dsimp only at hp1 hp2
                simp only [List.map_cons] at hcv
                rcases hcv with ⟨hpa, hpb⟩ | hcv
                · omega
                · exact hnc p hp1 hp2 hcv
          · simp only [hs, ite_false, List.mem_cons] at he
            rcases he with h | h | hmem
            · subst h
              refine Or.inr (Or.inr ⟨le_refl _, by first | omega | (dsimp only; omega), rfl, ?_⟩)
              intro p hp1 hp2 hcv
              try dsimp only at hp1 hp2
              simp only [List.map_cons] at hcv
              rcases hcv with ⟨hpa, hpb⟩ | hcv
              · omega
              · exact not_covers_of_lt hcr hh (by first | omega | (dsimp only; omega)) hcv
            · subst h
              exact Or.inr (Or.inl ⟨((a0, b0), v0), List.mem_cons_self _ _,
                le_refl _, le_refl _, rfl, by first | omega | (dsimp only; omega), by first | omega | (dsimp only; omega)⟩)
            · have := hge e hmem
              exact Or.inl ⟨e, List.mem_cons_of_mem _ hmem, le_refl _,
                le_refl _, rfl, Or.inr (by first | omega | (dsimp only; omega))⟩
        · -- new starts before old, partial overlap
          rw [tagAux, if_neg hA, if_neg hB1, if_neg hB2] at he
          simp only [List.mem_cons] at he
          rcases he with h | h | h | hmem
          · subst h
            refine Or.inr (Or.inr ⟨le_refl _, by first | omega | (dsimp only; omega), rfl, ?_⟩)
            intro p hp1 hp2 hcv
            try dsimp only at hp1 hp2
            simp only [List.map_cons] at hcv
            rcases hcv with ⟨hpa, hpb⟩ | hcv
            · omega
            · exact not_covers_of_lt hcr hh (by first | omega | (dsimp only; omega)) hcv
          · subst h
            exact Or.inr (Or.inl ⟨((a0, b0), v0), List.mem_cons_self _ _,
              le_refl _, by first | omega | (dsimp only; omega), rfl, by first | omega | (dsimp only; omega), by first | omega | (dsimp only; omega)⟩)
          · subst h
            exact Or.inl ⟨((a0, b0), v0), List.mem_cons_self _ _, by first | omega | (dsimp only; omega),
              le_refl _, rfl, Or.inr (by first | omega | (dsimp only; omega))⟩
          · have := hge e hmem
            exact Or.inl ⟨e, List.mem_cons_of_mem _ hmem, le_refl _,
              le_refl _, rfl, Or.inr (by first | omega | (dsimp only; omega))⟩

end Lepl

namespace Lepl

theorem tagsOf_congr {τ : Type} (P : List ((Int × Int) × τ)) {r r0 : Int × Int}
    (h1 : r0.1 ≤ r.1) (h2 : r.2 ≤ r0.2) (hpr : r.1 ≤ r.2)
    (hioo : ∀ q ∈ P, IOO r0 (norm q.1)) : tagsOf P r = tagsOf P r0 := by
  unfold tagsOf
  congr 1
  apply List.filter_congr
  intro q hq
  have hio := hioo q hq
  unfold IOO at hio
  rw [Bool.eq_iff_iff]
  simp only [Bool.and_eq_true, decide_eq_true_eq]
  omega

theorem tagsOf_append {τ : Type} (P : List ((Int × Int) × τ))
    (q0 : (Int × Int) × τ) (r : Int × Int) :
    tagsOf (P ++ [q0]) r =
      tagsOf P r ++
        (if (norm q0.1).1 ≤ r.1 ∧ r.2 ≤ (norm q0.1).2 then [q0.2] else []) := by
  unfold tagsOf
  rw [List.filter_append, List.map_append]
  congr 1
  by_cases hc : (norm q0.1).1 ≤ r.1 ∧ r.2 ≤ (norm q0.1).2
  · rw [if_pos hc]
    simp [List.filter, hc.1, hc.2]
  · rw [if_neg hc]
    rcases not_and_or.mp hc with hc1 | hc1 <;> simp [List.filter, hc1]

theorem tagsOf_nil {τ : Type} {P : List ((Int × Int) × τ)} {r : Int × Int}
    (hpr : r.1 ≤ r.2)
    (hgap : ∀ p, r.1 ≤ p → p ≤ r.2 → ¬coversN (P.map Prod.fst) p) :
    tagsOf P r = [] := by
  induction P with
  | nil => rfl
  | cons q t ih =>
    unfold tagsOf
    rw [List.filter_cons]
    have hcond : ¬((norm q.1).1 ≤ r.1 ∧ r.2 ≤ (norm q.1).2) := by
      intro ⟨hx1, hx2⟩
      exact hgap r.1 (le_refl _) hpr (Or.inl ⟨hx1, by omega⟩)
    rw [if_neg (by simpa using hcond)]
    apply ih
    intro p hp1 hp2 hcv
    exact hgap p hp1 hp2 (Or.inr hcv)

/-- The invariant of a TaggedFragments run: the stored intervals form a
chain covering exactly the union of the processed inputs and refining each
of them, and each entry carries exactly the tags of the processed inputs
covering it, in insertion order. -/
def tagInv {τ : Type} (P : List ((Int × Int) × τ))
    (R : List ((Int × Int) × List τ)) : Prop :=
  chainF (R.map Prod.fst) ∧
  (∀ p, covers (R.map Prod.fst) p ↔ coversN (P.map Prod.fst) p) ∧
  (∀ e ∈ R, ∀ q ∈ P, IOO e.1 (norm q.1)) ∧
  (∀ e ∈ R, e.2 = tagsOf P e.1)

theorem tagInv_step {τ : Type} {P : List ((Int × Int) × τ)}
    {R : List ((Int × Int) × List τ)} (q0 : (Int × Int) × τ)
    (h : tagInv P R) : tagInv (P ++ [q0]) (tagAppend R q0) := by
  obtain ⟨hch, hcov, hioo, htags⟩ := h
  have hab : (norm q0.1).1 ≤ (norm q0.1).2 := norm_proper q0.1
  have hmf : (tagAppend R q0).map Prod.fst =
      fragAux (norm q0.1).1 (norm q0.1).2 (R.map Prod.fst) :=
    tagAux_map_fst R (norm q0.1).1 (norm q0.1).2 [q0.2]
  have hch2 : chainF ((tagAppend R q0).map Prod.fst) := by
    rw [hmf]
    exact (fragAux_chain _ _ _ hab hch).1
  have hprop : ∀ e ∈ tagAppend R q0, e.1.1 ≤ e.1.2 := fun e he =>
    chainF_proper hch2 e.1 (List.mem_map_of_mem Prod.fst he)
  refine ⟨hch2, ?_, ?_, ?_⟩
  · intro p
    rw [hmf, fragAux_covers _ _ _ hab hch p, hcov p, List.map_append,
      coversN_append]
    simp [coversN]
  · intro e he q hq
    have hpieces := tagAux_pieces R (norm q0.1).1 (norm q0.1).2 [q0.2]
      hab hch e he
    rcases List.mem_append.mp hq with hq | hq
    · rcases hpieces with ⟨e0, he0, h01, h02, h03, h04⟩ |
        ⟨e0, he0, h01, h02, h03, h04, h05⟩ | ⟨hx1, hx2, hx3, hnc⟩
      · have hq0 := hioo e0 he0 q hq
        unfold IOO at hq0 ⊢
        omega
      · have hq0 := hioo e0 he0 q hq
        unfold IOO at hq0 ⊢
        omega
      · have hr12 : e.1.1 ≤ e.1.2 := hprop e he
        have hq12 : (norm q.1).1 ≤ (norm q.1).2 := norm_proper q.1
        unfold IOO
        rcases lt_or_le e.1.2 (norm q.1).1 with hlt | hle
        · exact Or.inr (Or.inl hlt)
        · rcases lt_or_le (norm q.1).2 e.1.1 with hlt2 | hle2
          · exact Or.inr (Or.inr hlt2)
          · exfalso
            have hcovp : coversN (P.map Prod.fst) (max e.1.1 (norm q.1).1) :=
              coversN_of_mem (List.mem_map_of_mem Prod.fst hq)
                (le_max_right _ _) (by omega)
            have hcovR : covers (R.map Prod.fst) (max e.1.1 (norm q.1).1) :=
              (hcov _).mpr hcovp
            exact hnc _ (le_max_left _ _) (by omega) hcovR
    · have hq2 : q = q0 := by simpa using hq
      subst hq2
      unfold IOO
      rcases hpieces with ⟨e0, he0, h01, h02, h03, h04⟩ |
        ⟨e0, he0, h01, h02, h03, h04, h05⟩ | ⟨hx1, hx2, hx3, hnc⟩
      · exact Or.inr h04
      · exact Or.inl ⟨h04, h05⟩
      · exact Or.inl ⟨hx1, hx2⟩
  · intro e he
    have hpieces := tagAux_pieces R (norm q0.1).1 (norm q0.1).2 [q0.2]
      hab hch e he
    have hr12 : e.1.1 ≤ e.1.2 := hprop e he
    rcases hpieces with ⟨e0, he0, h01, h02, h03, h04⟩ |
      ⟨e0, he0, h01, h02, h03, h04, h05⟩ | ⟨hx1, hx2, hx3, hnc⟩
    · rw [tagsOf_append, if_neg (by omega), List.append_nil, h03,
        htags e0 he0]
      exact (tagsOf_congr P h01 h02 hr12 (hioo e0 he0)).symm
    · rw [tagsOf_append, if_pos ⟨h04, h05⟩, h03, htags e0 he0]
      congr 1
      exact (tagsOf_congr P h01 h02 hr12 (hioo e0 he0)).symm
    · rw [tagsOf_append, if_pos ⟨hx1, hx2⟩, hx3]
      have hnil : tagsOf P e.1 = [] := by
        apply tagsOf_nil hr12
        intro p hp1 hp2 hcv
        exact hnc p hp1 hp2 ((hcov p).mpr hcv)
      rw [hnil, List.nil_append]

theorem tagInv_fold {τ : Type} :
    ∀ (inputs P : List ((Int × Int) × τ)) (R : List ((Int × Int) × List τ)),
      tagInv P R → tagInv (P ++ inputs) (inputs.foldl tagAppend R) := by
  intro inputs
  induction inputs with
  | nil => intro P R h; simpa using h
  | cons q rest ih =>
    intro P R h
    have h2 := tagInv_step q h
    have h3 := ih (P ++ [q]) (tagAppend R q) h2
    simpa using h3

theorem tagInv_init {τ : Type} : tagInv ([] : List ((Int × Int) × τ)) [] :=
  ⟨trivial, fun p => by simp [covers, coversN],
    fun e he => absurd he (List.not_mem_nil e),
    fun e he => absurd he (List.not_mem_nil e)⟩

/-- Claim C6: after a sequence of `TaggedFragments.append(character, tag)`
calls, every resulting entry carries exactly the tags of the appended
inputs whose (canonicalized) interval covers it, in insertion order, so
earlier-registered tags come first in every fragment's tag list. -/
theorem claim_C6_tagged_fragments {τ : Type}
    (inputs : List ((Int × Int) × τ)) :
    ∀ e ∈ taggedOfInputs inputs, e.2 = tagsOf inputs e.1 := by
  have hinv := tagInv_fold inputs [] [] tagInv_init
  rw [List.nil_append] at hinv
  exact hinv.2.2.2

/-- Witness for C6: appending (1,5) tagged 10 then (3,9) tagged 20 produces
the fragment (3,5) tagged [10, 20], matching the covering inputs in
insertion order. -/
theorem claim_C6_tagged_fragments_witness :
    (((3 : Int), (5 : Int)), [10, 20]) ∈
      taggedOfInputs [(((1 : Int), (5 : Int)), (10 : Nat)), ((3, 9), 20)] ∧
    [10, 20] = tagsOf [(((1 : Int), (5 : Int)), (10 : Nat)), ((3, 9), 20)]
      ((3 : Int), (5 : Int)) := by
  constructor
  · decide
  · exact claim_C6_tagged_fragments
      [(((1 : Int), (5 : Int)), (10 : Nat)), ((3, 9), 20)]
      (((3, 5)), [10, 20]) (by decide)

end Lepl

namespace Lepl

/-! ### IntervalMap (src/lepl/regexp/interval.py)

A map from intervals to values.  `__getitem__` takes a single point: it
sorts the stored intervals by upper bound (`index()`), locates the
candidate interval by `bisect_left` on the upper bounds, and returns the
stored value if the candidate contains the point, else None. -/

/-- Order on entries used by `index()`: sort by the interval's upper
bound. -/
def upperLe {V : Type} (u v : (Int × Int) × V) : Prop := u.1.2 ≤ v.1.2

instance {V : Type} : DecidableRel (upperLe (V := V)) :=
  fun u v => inferInstanceAs (Decidable (u.1.2 ≤ v.1.2))

instance {V : Type} : IsTotal ((Int × Int) × V) upperLe :=
  ⟨fun u v => le_total u.1.2 v.1.2⟩

instance {V : Type} : IsTrans ((Int × Int) × V) upperLe :=
  ⟨fun _ _ _ h1 h2 => le_trans h1 h2⟩

/-- The entry list sorted by interval upper bound (`self.__intervals`). -/
def sortedEntries {V : Type} (entries : List ((Int × Int) × V)) :
    List ((Int × Int) × V) :=
  entries.insertionSort upperLe

/-- `bisect_left(self.__index, point)`: on a list sorted ascending this is
the number of elements strictly below the point. -/
def imIndex {V : Type} (entries : List ((Int × Int) × V)) (p : Int) : Nat :=
  ((sortedEntries entries).map (fun e => e.1.2)).countP
    (fun u => decide (u < p))

/-- `IntervalMap.__getitem__(point)`. -/
def getitemIM {V : Type} (entries : List ((Int × Int) × V)) (p : Int) :
    Option V :=
  if h : imIndex entries p < (sortedEntries entries).length then
    if ((sortedEntries entries).get ⟨imIndex entries p, h⟩).1.1 ≤ p ∧
        p ≤ ((sortedEntries entries).get ⟨imIndex entries p, h⟩).1.2 then
      some ((sortedEntries entries).get ⟨imIndex entries p, h⟩).2
    else none
  else none

/-- In a sorted list, the elements below `p` are exactly those before the
bisection index. -/
theorem sorted_countP_lt {l : List Int} (hs : l.Sorted (· ≤ ·)) (p : Int) :
    ∀ (i : Nat) (h : i < l.length),
      (i < l.countP (fun u => decide (u < p)) ↔ l.get ⟨i, h⟩ < p) := by
  induction l with
  | nil => intro i h; simp at h
  | cons x t ih =>
    obtain ⟨hxall, hst⟩ := List.sorted_cons.mp hs
    intro i h
    by_cases hx : x < p
    · have hxd : decide (x < p) = true := decide_eq_true hx
      cases i with
      | zero =>
        simp only [List.countP_cons, hxd, ite_true, List.get_cons_zero]
        constructor
        · intro _; exact hx
        · intro _; omega
      | succ i2 =>
        have h2 : i2 < t.length := by simpa using h
        have hrec := ih hst i2 h2
        simp only [List.countP_cons, hxd, ite_true, List.get_cons_succ]
        omega
    · have hxd : decide (x < p) = false := decide_eq_false hx
      have hct : t.countP (fun u => decide (u < p)) = 0 := by
        rw [List.countP_eq_zero]
        intro a ha
        simp only [decide_eq_true_eq]
        have := hxall a ha
        omega
      have hcnt : (x :: t).countP (fun u => decide (u < p)) = 0 := by
        rw [List.countP_cons, hct, hxd]
        rfl
      cases i with
      | zero =>
        rw [hcnt]
        constructor
        · intro hcon; exact absurd hcon (lt_irrefl 0)
        · intro hlt; exact absurd hlt hx
      | succ i2 =>
        have h2 : i2 < t.length := by simpa using h
        rw [hcnt]
        constructor
        · intro hcon; exact absurd hcon (by omega)
        · intro hlt
          exfalso
          have hlt2 : t.get ⟨i2, h2⟩ < p := hlt
          have hxa := hxall _ (List.get_mem t i2 h2)
          omega

/-- Claim C10: for an IntervalMap whose stored interval keys are proper and
pairwise disjoint, point lookup returns the value stored under the unique
interval containing the point when one exists, and None otherwise; it is
total and never raises a missing-key error. -/
theorem claim_C10_interval_map_lookup {V : Type}
    (entries : List ((Int × Int) × V)) (p : Int)
    (hp : ∀ e ∈ entries, e.1.1 ≤ e.1.2)
    (hd : entries.Pairwise (fun e f => ∀ x : Int,
      ¬(e.1.1 ≤ x ∧ x ≤ e.1.2 ∧ f.1.1 ≤ x ∧ x ≤ f.1.2))) :
    (∀ e ∈ entries, e.1.1 ≤ p → p ≤ e.1.2 →
      getitemIM entries p = some e.2) ∧
    ((∀ e ∈ entries, ¬(e.1.1 ≤ p ∧ p ≤ e.1.2)) →
      getitemIM entries p = none) := by
  have hperm : List.Perm (sortedEntries entries) entries :=
    List.perm_insertionSort upperLe entries
  have hps : ∀ e ∈ sortedEntries entries, e.1.1 ≤ e.1.2 :=
    fun e he => hp e (hperm.subset he)
  have hsymm : ∀ {x y : (Int × Int) × V},
      (∀ z : Int, ¬(x.1.1 ≤ z ∧ z ≤ x.1.2 ∧ y.1.1 ≤ z ∧ z ≤ y.1.2)) →
      ∀ z : Int, ¬(y.1.1 ≤ z ∧ z ≤ y.1.2 ∧ x.1.1 ≤ z ∧ z ≤ x.1.2) :=
    fun h z hc => h z ⟨hc.2.2.1, hc.2.2.2, hc.1, hc.2.1⟩
  have hds : (sortedEntries entries).Pairwise (fun e f => ∀ x : Int,
      ¬(e.1.1 ≤ x ∧ x ≤ e.1.2 ∧ f.1.1 ≤ x ∧ x ≤ f.1.2)) :=
    (List.Perm.pairwise_iff (fun h => hsymm h) hperm).mpr hd
  have hsor : (sortedEntries entries).Sorted upperLe :=
    List.sorted_insertionSort upperLe entries
  have hus : ((sortedEntries entries).map (fun e => e.1.2)).Sorted (· ≤ ·) :=
    List.pairwise_map.mpr hsor
  have hlenm : ((sortedEntries entries).map (fun e => e.1.2)).length =
      (sortedEntries entries).length := List.length_map _ _
  constructor
  · intro e0 hm0 h1 h2
    have hm0s : e0 ∈ sortedEntries entries := hperm.mem_iff.mpr hm0
    have hlt : imIndex entries p < (sortedEntries entries).length := by
      by_contra hge
      have hle : imIndex entries p ≤ (sortedEntries entries).length := by
        have := List.countP_le_length
          (p := fun u => decide (u < p))
          (l := (sortedEntries entries).map (fun e => e.1.2))
        rw [hlenm] at this
        exact this
      have heq : imIndex entries p = (sortedEntries entries).length := by
        omega
      have hall : ∀ u ∈ (sortedEntries entries).map (fun e => e.1.2),
          decide (u < p) = true := by
        rw [← List.countP_eq_length, hlenm]
        exact heq
      have hmm : e0.1.2 ∈ (sortedEntries entries).map (fun e => e.1.2) :=
        List.mem_map_of_mem _ hm0s
      have := hall _ hmm
      simp only [decide_eq_true_eq] at this
      omega
    obtain ⟨⟨j, hjl⟩, hjget⟩ := List.mem_iff_get.mp hm0s
    have hltm : imIndex entries p <
        ((sortedEntries entries).map (fun e => e.1.2)).length := by
      rw [hlenm]; exact hlt
    have hm1 : ((sortedEntries entries).map (fun e => e.1.2)).get
        ⟨imIndex entries p, hltm⟩ =
        ((sortedEntries entries).get ⟨imIndex entries p, hlt⟩).1.2 := by
      rw [List.get_map]
    have hjm : j < ((sortedEntries entries).map (fun e => e.1.2)).length := by
      rw [hlenm]; exact hjl
    have hjub : ((sortedEntries entries).map (fun e => e.1.2)).get ⟨j, hjm⟩ =
        e0.1.2 := by
      rw [List.get_map]
      exact congrArg (fun e => e.1.2) hjget
    have hub : p ≤ ((sortedEntries entries).get
        ⟨imIndex entries p, hlt⟩).1.2 := by
      have hiff := sorted_countP_lt hus p (imIndex entries p) hltm
      rw [hm1] at hiff
      have h3 := (not_congr hiff).mp (lt_irrefl _)
      omega
    have hjq : j = imIndex entries p := by
      rcases lt_trichotomy j (imIndex entries p) with hlt2 | heq | hgt
      · exfalso
        have hiff := sorted_countP_lt hus p j hjm
        rw [hjub] at hiff
        have h5 := hiff.mp (by exact hlt2)
        omega
      · exact heq
      · exfalso
        have hdisj := List.pairwise_iff_get.mp hds
          ⟨imIndex entries p, hlt⟩ ⟨j, hjl⟩ hgt
        rw [hjget] at hdisj
        have hpr2 : ((sortedEntries entries).get
            ⟨imIndex entries p, hlt⟩).1.1 ≤
            ((sortedEntries entries).get ⟨imIndex entries p, hlt⟩).1.2 :=
          hps _ (List.get_mem _ _ _)
        have hmono := List.pairwise_iff_get.mp hus
          ⟨imIndex entries p, hltm⟩ ⟨j, hjm⟩ hgt
        rw [hm1, hjub] at hmono
        exact hdisj (((sortedEntries entries).get
            ⟨imIndex entries p, hlt⟩).1.2)
          ⟨hpr2, le_refl _, by omega, by omega⟩
    have hcand : (sortedEntries entries).get ⟨imIndex entries p, hlt⟩ = e0 := by
      rw [← hjget]
      congr 1
      exact Fin.ext hjq.symm
    rw [getitemIM, dif_pos hlt, if_pos (by rw [hcand]; exact ⟨h1, h2⟩), hcand]
  · intro hno
    by_cases hlt : imIndex entries p < (sortedEntries entries).length
    · rw [getitemIM, dif_pos hlt, if_neg]
      exact hno _ (hperm.subset (List.get_mem _ _ _))
    · rw [getitemIM, dif_neg hlt]

/-- Witness for C10: with stored intervals (1,3) and (5,9), point 6 finds
(5,9) and point 4 finds nothing. -/
theorem claim_C10_interval_map_lookup_witness :
    (∀ e ∈ [(((1 : Int), (3 : Int)), "lo"), ((5, 9), "hi")], e.1.1 ≤ e.1.2) ∧
    getitemIM [(((1 : Int), (3 : Int)), "lo"), ((5, 9), "hi")] 6 = some "hi" ∧
    getitemIM [(((1 : Int), (3 : Int)), "lo"), ((5, 9), "hi")] 4 = none := by
  have hp : ∀ e ∈ [(((1 : Int), (3 : Int)), "lo"), ((5, 9), "hi")],
      e.1.1 ≤ e.1.2 := by decide
  have hd : ([(((1 : Int), (3 : Int)), "lo"), ((5, 9), "hi")]).Pairwise
      (fun e f => ∀ x : Int,
        ¬(e.1.1 ≤ x ∧ x ≤ e.1.2 ∧ f.1.1 ≤ x ∧ x ≤ f.1.2)) := by
    refine List.Pairwise.cons ?_ (List.pairwise_singleton _ _)
    intro f hf x hx
    simp only [List.mem_singleton] at hf
    subst hf
    simp only at hx
    omega
  refine ⟨hp, ?_, ?_⟩
  · exact (claim_C10_interval_map_lookup _ 6 hp hd).1 ((5, 9), "hi")
      (by simp) (by decide) (by decide)
  · exact (claim_C10_interval_map_lookup _ 4 hp hd).2 (by decide)

end Lepl

namespace Lepl

/-! ### Offside lexer (src/lepl/lexer/blocks/lexer.py, `_OffsideLexer._tokens`)

The stream is modelled as the list of its lines (`s_line` pops a line,
`s_empty` tests for exhaustion); regular-expression matching is abstract:
`smatch` is `s_regexp.size_match` (returning the matched size, None on
failure, which Python surfaces as a TypeError during unpacking) and
`tmatch` is `t_regexp.match` (returning terminals, matched text and the
advanced stream).  Tokens are (terminal list, content) pairs; `indentTag`
and `endTag` are the INDENT and END terminals.  A lexing failure anywhere
(`RuntimeLexerError`) is modelled as a None result for the run, and the
possibly non-terminating inner token loop is fuelled. -/

/-- Tab expansion for the INDENT text: with a configured tabsize every tab
becomes that many spaces (`indent.replace(tab, ' ' * tabsize)`). -/
def expandTabs (tabsize : Option Nat) (s : List Char) : List Char :=
  match tabsize with
  | none => s
  | some n => s.flatMap (fun c => if c = '\t' then List.replicate n ' ' else [c])

/-- The inner token loop over the remainder of one line: match a token and
yield it, or match and skip the discard regexp, until the line is empty;
when neither matches, fail (RuntimeLexerError). -/
def lineToks {τ : Type}
    (tmatch : List Char → Option (List τ × List Char × List Char))
    (smatch : List Char → Option Nat) :
    Nat → List Char → Option (List (List τ × List Char))
  | _, [] => some []
  | 0, _ :: _ => none
  | fuel + 1, c :: cs =>
    match tmatch (c :: cs) with
    | some (terms, text, rest) =>
      (lineToks tmatch smatch fuel rest).map (fun ts => (terms, text) :: ts)
    | none =>
      match smatch (c :: cs) with
      | some size => lineToks tmatch smatch fuel ((c :: cs).drop size)
      | none => none

/-- `_OffsideLexer._tokens`: for each line, match the leading-whitespace
regexp (size 0 if it fails), emit an INDENT token with the tab-expanded
indent text, run the ordinary token loop on the remainder of the line,
emit an END token, and continue with the next line until the stream is
empty. -/
def offsideTokens {τ : Type} (indentTag endTag : τ) (tabsize : Option Nat)
    (tmatch : List Char → Option (List τ × List Char × List Char))
    (smatch : List Char → Option Nat) (fuel : Nat) :
    List (List Char) → Option (List (List τ × List Char))
  | [] => some []
  | line :: rest =>
    let size := match smatch line with
      | some size => size
      | none => 0
    let indent := expandTabs tabsize (line.take size)
    match lineToks tmatch smatch fuel (line.drop size) with
    | none => none
    | some toks =>
      match offsideTokens indentTag endTag tabsize tmatch smatch fuel rest with
      | none => none
      | some more =>
        some (([indentTag], indent) :: toks ++ ([endTag], []) :: more)

/-- The specified per-line shape: one INDENT token carrying the
(tab-expanded) leading whitespace, then the ordinary tokens of the rest of
the line, then one END token. -/
def lexLine {τ : Type} (indentTag endTag : τ) (tabsize : Option Nat)
    (tmatch : List Char → Option (List τ × List Char × List Char))
    (smatch : List Char → Option Nat) (fuel : Nat) (line : List Char) :
    Option (List (List τ × List Char)) :=
  let size := match smatch line with
    | some size => size
    | none => 0
  (lineToks tmatch smatch fuel (line.drop size)).map
    (fun toks =>
      ([indentTag], expandTabs tabsize (line.take size)) :: toks ++
        [([endTag], [])])

/-- Claim C5: the offside lexer's token generator emits, for each line in
order, first one INDENT token carrying the line's tab-expanded leading
whitespace, then the ordinary tokens matched over the remainder of the
line, then one END token, proceeding line by line until the stream is
empty: the whole run is the concatenation of the per-line shapes. -/
theorem claim_C5_offside_lexer {τ : Type} (indentTag endTag : τ)
    (tabsize : Option Nat)
    (tmatch : List Char → Option (List τ × List Char × List Char))
    (smatch : List Char → Option Nat) (fuel : Nat) :
    ∀ lines : List (List Char),
      offsideTokens indentTag endTag tabsize tmatch smatch fuel lines =
        (lines.mapM (lexLine indentTag endTag tabsize tmatch smatch fuel)).map
          List.flatten := by
  intro lines
  induction lines with
  | nil => rfl
  | cons line rest ih =>
    rw [offsideTokens, List.mapM_cons]
    cases htoks : lineToks tmatch smatch fuel
        (line.drop (match smatch line with
          | some size => size
          | none => 0)) with
    | none =>
      simp only [lexLine, htoks, Option.map_none]
      rfl
    | some toks =>
      simp only [lexLine, htoks, Option.map_some]
      cases hrest : offsideTokens indentTag endTag tabsize tmatch smatch fuel
          rest with
      | none =>
        rw [hrest] at ih
        have hmm : rest.mapM (lexLine indentTag endTag tabsize tmatch smatch
            fuel) = none := by
          cases hmm2 : rest.mapM (lexLine indentTag endTag tabsize tmatch
              smatch fuel) with
          | none => rfl
          | some ls => rw [hmm2] at ih; simp at ih
        simp only [hmm]
        rfl
      | some more =>
        rw [hrest] at ih
        cases hmm : rest.mapM (lexLine indentTag endTag tabsize tmatch smatch
            fuel) with
        | none => rw [hmm] at ih; simp at ih
        | some ls =>
          rw [hmm] at ih
          have ih2 : more = List.flatten ls := by simpa using ih
          show some _ = some _
          simp [List.flatten, ih2]

end Lepl
